import Mathlib

/-!
Verification of the Atom Voice backend core against its design document.

The development shallowly embeds the Python sources:
* `backend/app/llm_service.py` — the streaming sentence segmenter
  (`_split_buffer`, `_stream_llm_sentences`) and metadata parsing
  (`_parse_novoice`);
* `backend/app/conversation_store.py` — the conversation store and the
  utterance-session reassembler (`add_chunk_text`, `finalize_session`,
  `clear_conversation`, `get_all_conversations`);
* `backend/app/main.py` — the streaming pipeline orchestrator
  (`_create_streaming_sse_generator`, `llm_producer`, `tts_worker`);
* `backend/app/tts_service.py` — the synthesis event stream shape
  (`text_to_speech_stream`).

Strings are embedded as `List Char`; Python dicts as association lists with
in-place first-key update (`updateA`), which matches insertion-order and
last-write-wins semantics of `dict`.  Wall-clock measurements are not
modelled (their values are carried as opaque `null`s where only the shape of
an event matters).
-/

namespace AtomVoice

/-- Python regex `\s` / bare `str.strip()` whitespace, restricted to the
ASCII whitespace characters (the ones this codebase can produce around
sentence boundaries). -/
def isWsChar (c : Char) : Bool :=
  c = ' ' || c = '\t' || c = '\n' || c = '\r' || c = '\x0b' || c = '\x0c'

/-- The sentence-terminal characters of
`_SENTENCE_SPLIT_RE = re.compile(r'(?<=[.!?…])\s+')`. -/
def isTermChar (c : Char) : Bool :=
  c = '.' || c = '!' || c = '?' || c = '…'

/-- `str.strip()` — drop whitespace from both ends. -/
def strip (l : List Char) : List Char :=
  (((l.dropWhile isWsChar).reverse).dropWhile isWsChar).reverse

/-- A list made of whitespace characters only. -/
def WsOnly (l : List Char) : Prop := ∀ c ∈ l, isWsChar c = true

/-! ### The sentence splitter `_split_buffer`

`re.split(r'(?<=[.!?…])\s+', buffer)` is modelled as a left-to-right scan:
the split pattern matches a maximal whitespace run immediately preceded by a
sentence-terminal character.  The scan state is `none` while consuming such
a run (in a separator) and `some acc` while building the current part
(`acc` holds the part's characters in reverse). -/

/-- Does the part built so far end with a sentence-terminal character?
(The regex lookbehind `(?<=[.!?…])`.) -/
def headTerm : List Char → Bool
  | [] => false
  | t :: _ => isTermChar t

/-- One scan step: the next state of the current-part register. -/
def curStep : Option (List Char) → Char → Option (List Char)
  | none, c => if isWsChar c then none else some [c]
  | some a, c => if isWsChar c && headTerm a then none else some (c :: a)

/-- One scan step: the (zero or one) completed part this character closes. -/
def emitOf : Option (List Char) → Char → List (List Char)
  | none, _ => []
  | some a, c => if isWsChar c && headTerm a then [a.reverse] else []

structure SplitSt where
  done : List (List Char)
  cur : Option (List Char)
deriving DecidableEq

def splitStep (s : SplitSt) (c : Char) : SplitSt :=
  ⟨s.done ++ emitOf s.cur c, curStep s.cur c⟩

def initSplit : SplitSt := ⟨[], some []⟩

def splitRun (l : List Char) : SplitSt := l.foldl splitStep initSplit

/-- The text of the still-open part (`""` when the scan stopped inside a
separator run, exactly as `re.split` yields a trailing empty part). -/
def curPart : Option (List Char) → List Char
  | none => []
  | some a => a.reverse

/-- `re.split(_SENTENCE_SPLIT_RE, l)`. -/
def splitParts (l : List Char) : List (List Char) :=
  (splitRun l).done ++ [curPart (splitRun l).cur]

/-- `_split_buffer` (llm_service.py:195-204): completed sentences
(stripped, non-empty) and the remaining buffer. -/
def split_buffer (buffer : List Char) : List (List Char) × List Char :=
  let parts := splitParts buffer
  if parts.length ≤ 1 then ([], buffer)
  else ((parts.dropLast.map strip).filter (fun p => p ≠ []), parts.getLastD [])

/-! ### The streaming segmenter `_stream_llm_sentences` (Gemini path)

The async generator's per-delta behaviour (llm_service.py:315-371) is a pure
state machine over the accumulated stream; the yielded sentence events are
recorded in `events`. -/

structure SentEvent where
  text : List Char
  index : Nat
deriving DecidableEq

@[ext]
structure SegState where
  buffer : List Char
  fullText : List Char
  sentenceIndex : Nat
  novoiceBuffer : List Char
  inNovoice : Bool
  events : List SentEvent
deriving DecidableEq

def spaceChar : List Char := [' ']

/-- The per-sentence body of both emission loops:
`if s.strip(): full_text += s + " "; yield s.strip(); sentence_index += 1`. -/
def emitOne (st : SegState) (s : List Char) : SegState :=
  if strip s ≠ [] then
    { st with fullText := st.fullText ++ s ++ spaceChar,
              events := st.events ++ [⟨strip s, st.sentenceIndex⟩],
              sentenceIndex := st.sentenceIndex + 1 }
  else st

def emitSents (st : SegState) (l : List (List Char)) : SegState := l.foldl emitOne st

def novoiceTag : List Char := "<novoice>".data

/-- First index of `pat` as a contiguous sublist (`buffer.index(pat)` /
`pat in buffer`). -/
def findSubIdx (pat : List Char) : List Char → Option Nat
  | [] => if pat = [] then some 0 else none
  | c :: rest =>
    if pat.isPrefixOf (c :: rest) then some 0
    else (findSubIdx pat rest).map (· + 1)

/-- The `<novoice>`-found branch of the streaming loop
(llm_service.py:325-348): enter metadata mode, then flush the text before
the tag through the sentence splitter, emitting the trailing remainder as
its own sentence. -/
def tagBranch (st : SegState) (buf : List Char) (idx : Nat) : SegState :=
  let before := buf.take idx
  let base := { st with buffer := [], novoiceBuffer := buf.drop idx, inNovoice := true }
  if strip before ≠ [] then
    let sp := split_buffer before
    let st1 := emitSents base sp.1
    if strip sp.2 ≠ [] then
      { st1 with fullText := st1.fullText ++ sp.2 ++ spaceChar,
                 events := st1.events ++ [⟨strip sp.2, st1.sentenceIndex⟩],
                 sentenceIndex := st1.sentenceIndex + 1 }
    else st1
  else base

/-- One delta of the Gemini streaming loop (llm_service.py:316-359). -/
def feedDelta (st : SegState) (delta : List Char) : SegState :=
  if st.inNovoice then { st with novoiceBuffer := st.novoiceBuffer ++ delta }
  else
    let buf := st.buffer ++ delta
    match findSubIdx novoiceTag buf with
    | some idx => tagBranch st buf idx
    | none =>
      let sp := split_buffer buf
      { emitSents st sp.1 with buffer := sp.2 }

/-- End of stream: flush the remaining buffer (llm_service.py:366-371). -/
def finishStream (st : SegState) : SegState :=
  if strip st.buffer ≠ [] ∧ st.inNovoice = false then
    { st with fullText := st.fullText ++ st.buffer,
              events := st.events ++ [⟨strip st.buffer, st.sentenceIndex⟩],
              sentenceIndex := st.sentenceIndex + 1 }
  else st

def initSegState : SegState := ⟨[], [], 0, [], false, []⟩

/-- A whole generation run: feed every delta, then flush. -/
def runSegmenter (deltas : List (List Char)) : SegState :=
  finishStream (deltas.foldl feedDelta initSegState)

def fallbackText : List Char := "Hmm, bir şey söyleyemedim.".data

/-- The `full_text` field of the terminal done event
(`clean_text = full_text.strip()`, with the non-empty fallback,
llm_service.py:374-382). -/
def cleanText (st : SegState) : List Char :=
  let c := strip st.fullText
  if c = [] then fallbackText else c

/-! ### Python dicts as association lists

Insertion-ordered maps: `updateA` replaces the value at the first matching
key in place (as `d[k] = v` does for an existing key) and appends a new
binding at the tail (as it does for a fresh key); `lookupA` is `d.get(k)`,
`eraseA` is `d.pop(k)`.  Every dict the program builds has pairwise distinct
keys, which these operations preserve. -/

def lookupA {κ β : Type} [DecidableEq κ] : List (κ × β) → κ → Option β
  | [], _ => none
  | (k0, v) :: rest, k => if k0 = k then some v else lookupA rest k

def updateA {κ β : Type} [DecidableEq κ] : List (κ × β) → κ → β → List (κ × β)
  | [], k, v => [(k, v)]
  | (k0, v0) :: rest, k, v =>
      if k0 = k then (k, v) :: rest else (k0, v0) :: updateA rest k v

def eraseA {κ β : Type} [DecidableEq κ] : List (κ × β) → κ → List (κ × β)
  | [], _ => []
  | (k0, v0) :: rest, k => if k0 = k then rest else (k0, v0) :: eraseA rest k

/-- The dict built from `{}` by setting `d[k] = v` left to right. -/
def buildA {κ β : Type} [DecidableEq κ] (ps : List (κ × β)) : List (κ × β) :=
  ps.foldl (fun m p => updateA m p.1 p.2) []

/-! ### `_parse_novoice` metadata field parsing (llm_service.py:160-192) -/

/-- A parsed metadata value: `int(value)` result, a literal that `float(value)`
accepts (kept as written; no floating-point arithmetic is ever performed on
it), or the raw string. -/
inductive NVal where
  | intV : Int → NVal
  | floatV : List Char → NVal
  | strV : List Char → NVal
deriving DecidableEq

/-- The integer denoted by a string of decimal digits. -/
def digitsVal (l : List Char) : Int :=
  l.foldl (fun a c => 10 * a + ((c.toNat : Int) - 48)) 0

/-- Python `int(s)` on an already-stripped string: optional sign then decimal
digits (digit-grouping underscores are not modelled). -/
def parseIntPy (l : List Char) : Option Int :=
  match l with
  | '+' :: r => if r ≠ [] ∧ r.all Char.isDigit then some (digitsVal r) else none
  | '-' :: r => if r ≠ [] ∧ r.all Char.isDigit then some (-digitsVal r) else none
  | _ => if l ≠ [] ∧ l.all Char.isDigit then some (digitsVal l) else none

/-- An optionally signed nonempty digit string (a float exponent). -/
def signedDigits (l : List Char) : Bool :=
  match l with
  | '+' :: r => !r.isEmpty && r.all Char.isDigit
  | '-' :: r => !r.isEmpty && r.all Char.isDigit
  | _ => !l.isEmpty && l.all Char.isDigit

/-- A float mantissa: digits, or digits on at least one side of one dot. -/
def mantShape (l : List Char) : Bool :=
  match l.splitOn '.' with
  | [a] => !a.isEmpty && a.all Char.isDigit
  | [a, b] => (!a.isEmpty || !b.isEmpty) && a.all Char.isDigit && b.all Char.isDigit
  | _ => false

/-- `str.lower()` (ASCII, which is all this codebase's keys use). -/
def toLowerStr (l : List Char) : List Char := l.map Char.toLower

/-- Does Python `float(s)` accept the already-stripped string `s`?
(Sign, mantissa, optional `e`/`E` exponent, or the special words.) -/
def floatShape (l : List Char) : Bool :=
  let body := match l with | '+' :: r => r | '-' :: r => r | _ => l
  (match body.findIdx? (fun c => c == 'e' || c == 'E') with
   | none => mantShape body
   | some i => mantShape (body.take i) && signedDigits (body.drop (i + 1)))
  || decide (toLowerStr body ∈ (["inf".data, "infinity".data, "nan".data] : List (List Char)))

/-- llm_service.py:182-189: `int(value)`, falling back to `float(value)`,
falling back to the raw string — applied (only) to the `price` field. -/
def priceValue (v : List Char) : NVal :=
  match parseIntPy v with
  | some n => .intV n
  | none => if floatShape v then .floatV v else .strV v

/-- `part.split(sep, 1)` when `sep in part`, else `none`. -/
def splitOnce (sep : Char) (l : List Char) : Option (List Char × List Char) :=
  match l.findIdx? (fun c => c == sep) with
  | none => none
  | some i => some (l.take i, l.drop (i + 1))

/-- The body of the field loop, llm_service.py:176-190: strip the part, skip
it unless it contains `:`, split once on `:`, strip-and-lowercase the key,
strip the value, numerically parse the value only when the key is `price`,
and store the binding. -/
def parseField (m : List (List Char × NVal)) (rawPart : List Char) :
    List (List Char × NVal) :=
  let part := strip rawPart
  match splitOnce ':' part with
  | none => m
  | some (k, v) =>
    let key := toLowerStr (strip k)
    let value := strip v
    updateA m key (if key = "price".data then priceValue value else .strV value)

/-- llm_service.py:171-190 given the region the `<novoice>` regex captured:
strip it (line 171), split it on `|` (line 175), and run the field loop. -/
def parse_novoice_meta (content : List Char) : List (List Char × NVal) :=
  ((strip content).splitOn '|').foldl parseField []

/-- Spec-modelled field loop, following claim C6's words instead of the
source: EVERY field's value is speculatively parsed as an integer, then as a
decimal, falling back to the raw text — not just the `price` field. -/
def claimedParseField (m : List (List Char × NVal)) (rawPart : List Char) :
    List (List Char × NVal) :=
  let part := strip rawPart
  match splitOnce ':' part with
  | none => m
  | some (k, v) => updateA m (toLowerStr (strip k)) (priceValue (strip v))

/-- Spec-modelled metadata parsing (claim C6's words). -/
def claimedParseFields (content : List Char) : List (List Char × NVal) :=
  ((strip content).splitOn '|').foldl claimedParseField []

/-! ### The conversation store (conversation_store.py) -/

structure ConvMessage where
  role : List Char
  content : List Char
deriving DecidableEq

/-- One `_conversations` record: `{"npc_id": ..., "messages": [...]}`. -/
structure ConvRecord where
  npc_id : List Char
  messages : List ConvMessage
deriving DecidableEq

/-- One buffered fragment: `{"text": ..., "stt_ms": ...}`.  `stt_ms` is a
float the store only carries (never computes with), so any carrier with
decidable equality represents it; `Int` is used. -/
structure ChunkData where
  text : List Char
  stt_ms : Int
deriving DecidableEq

/-- The store's state: `_conversations` and `_active_sessions`.  Locking
serialises every method, so the model is a plain state-passing one. -/
structure StoreState where
  conversations : List (List Char × ConvRecord)
  activeSessions : List (List Char × List (Int × ChunkData))
deriving DecidableEq

def emptyStore : StoreState := ⟨[], []⟩

/-- conversation_store.py:128-139 `add_chunk_text`: ensure the session's
inner dict exists, then set its `index` slot (creating the inner dict and
immediately writing into it collapses to one two-level update). -/
def add_chunk_text (st : StoreState) (sid : List Char) (index : Int)
    (text : List Char) (stt_ms : Int) : StoreState :=
  let inner := updateA ((lookupA st.activeSessions sid).getD []) index ⟨text, stt_ms⟩
  { st with activeSessions := updateA st.activeSessions sid inner }

/-- conversation_store.py:148-167 `finalize_session`: pop the session (a
missing session pops the default `{}` and leaves the store unchanged), and
for a nonempty one sort its indices ascending, join the texts with single
spaces, strip, and read the highest index's `stt_ms`.  The impossible inner
lookups (`chunks[i]` for `i` a key of `chunks`) are totalised with `getD`. -/
def finalize_session (st : StoreState) (sid : List Char) :
    (List Char × Option Int) × StoreState :=
  match lookupA st.activeSessions sid with
  | none => (([], none), st)
  | some chunks =>
    let st2 : StoreState := { st with activeSessions := eraseA st.activeSessions sid }
    if chunks = [] then (([], none), st2)
    else
      let sorted_indices := List.insertionSort (· ≤ ·) (chunks.map Prod.fst)
      let sorted_texts := sorted_indices.map (fun i => ((lookupA chunks i).getD ⟨[], 0⟩).text)
      let last_index := sorted_indices.getLast?.getD 0
      ((strip (List.intercalate spaceChar sorted_texts),
        some ((lookupA chunks last_index).getD ⟨[], 0⟩).stt_ms), st2)

/-- conversation_store.py:88-94 `clear_conversation`: if the npc has a
record, set its `messages` to `[]` (the record itself stays) and return
`True`; otherwise return `False`. -/
def clear_conversation (st : StoreState) (npc : List Char) : Bool × StoreState :=
  match lookupA st.conversations npc with
  | some conv =>
      (true, { st with conversations :=
                 updateA st.conversations npc { conv with messages := [] } })
  | none => (false, st)

/-- conversation_store.py:77-86 `get_all_conversations`: a per-record copy of
the whole `_conversations` dict. -/
def get_all_conversations (st : StoreState) : List (List Char × ConvRecord) :=
  st.conversations.map (fun p => (p.1, ⟨p.2.npc_id, p.2.messages⟩))

/-- One call of `add_chunk_text` as an event (used to quantify over upload
interleavings). -/
structure Upload where
  sid : List Char
  index : Int
  text : List Char
  stt_ms : Int
deriving DecidableEq

def applyUploads (ups : List Upload) (st : StoreState) : StoreState :=
  ups.foldl (fun s u => add_chunk_text s u.sid u.index u.text u.stt_ms) st

/-- Spec-modelled `finalize` (claim C2's words): from the bare upload
sequence, keep for every index the LAST upload of this session with that
index, sort the distinct indices ascending, join the texts with single
spaces, trim, and return the latency of the highest-index fragment; empty
text and no latency for a session with no stored fragments. -/
def specFinalize (ups : List Upload) (sid : List Char) : List Char × Option Int :=
  let mine := ups.filter (fun u => u.sid = sid)
  if mine = [] then ([], none)
  else
    let idxs := List.insertionSort (· ≤ ·) (mine.map Upload.index).dedup
    let texts := idxs.map (fun i =>
      (((mine.filter (fun u => u.index = i)).getLast?).map Upload.text).getD [])
    let lastI := idxs.getLast?.getD 0
    (strip (List.intercalate spaceChar texts),
     some ((((mine.filter (fun u => u.index = lastI)).getLast?).map Upload.stt_ms).getD 0))

/-! ### The streaming pipeline (main.py:474-639)

The producer, the single sequential TTS worker and the consumer communicate
through FIFO queues, so one pipeline run is the sequential composition
below.  Synthesis is the environment: `synth` maps a sentence to the event
list `text_to_speech_stream` actually yielded for it (a failure shows up as
an `error` event or as a truncated list — the worker's per-sentence
`try/except` is what lets the run continue either way). -/

/-- One audio chunk as yielded by `text_to_speech_stream`: its base64
payload and its per-sentence `chunk_index` (timing fields are not
modelled). -/
structure AudioChunk where
  payload : List Char
  srcIndex : Nat
deriving DecidableEq

/-- An event of `text_to_speech_stream` (tts_service.py:122-212). -/
inductive TTSEvent where
  | audioEv : AudioChunk → TTSEvent
  | doneEv : TTSEvent
  | errorEv : List Char → TTSEvent
deriving DecidableEq

/-- The done dict of `_stream_llm_sentences` (the fields main.py reads;
timings not modelled). -/
structure LLMDone where
  full_text : List Char
  novoice : List (List Char × NVal)
  sentence_count : Nat
deriving DecidableEq

/-- An item of the LLM stream generator consumed by `llm_producer`. -/
inductive LLMItem where
  | sentenceItem : List Char → LLMItem
  | doneItem : LLMDone → LLMItem
deriving DecidableEq

/-- The LLM stream as the pipeline sees it: it either yields its items and
ends, or yields them and then raises with a message. -/
inductive LLMStream where
  | ok : List LLMItem → LLMStream
  | failsAfter : List LLMItem → List Char → LLMStream
deriving DecidableEq

/-- A message on `sentence_q`: a sentence or the `None` end sentinel. -/
inductive QMsg where
  | text : List Char → QMsg
  | sentinel : QMsg
deriving DecidableEq

/-- What `llm_producer` leaves behind: everything it put on `sentence_q`
(in order), `llm_done_info`'s done-item part, and its `error` entry.  The
done item and the `error` key touch disjoint keys of `llm_done_info`, so
the dict is carried as the pair `(info, error)`. -/
structure ProducerResult where
  queue : List QMsg
  info : Option LLMDone
  error : Option (List Char)
deriving DecidableEq

/-- The producer's loop body (main.py:516-521): a sentence item is queued;
a done item updates `llm_done_info` and queues the sentinel. -/
def processItems (items : List LLMItem) : ProducerResult :=
  items.foldl
    (fun r it =>
      match it with
      | .sentenceItem s => { r with queue := r.queue ++ [QMsg.text s] }
      | .doneItem i => { r with queue := r.queue ++ [QMsg.sentinel], info := some i })
    ⟨[], none, none⟩

/-- main.py:514-525 `llm_producer`: iterate the stream; on an exception
record `llm_done_info["error"]` and still queue the sentinel. -/
def llm_producer : LLMStream → ProducerResult
  | .ok items => processItems items
  | .failsAfter items msg =>
      let r := processItems items
      { r with queue := r.queue ++ [QMsg.sentinel], error := some msg }

def isSentinel : QMsg → Bool
  | .sentinel => true
  | .text _ => false

/-- The sentences the TTS worker dequeues: everything before the first
sentinel (main.py:532-536 — the worker breaks at `None`). -/
def sentencesOf (q : List QMsg) : List (List Char) :=
  (q.takeWhile (fun m => !isSentinel m)).filterMap
    (fun m => match m with | .text s => some s | .sentinel => none)

/-- `chunk["type"] == "audio"` filter of main.py:541-543. -/
def audioOf : TTSEvent → Option AudioChunk
  | .audioEv c => some c
  | _ => none

/-- main.py:530-546 `tts_worker`: synthesize each dequeued sentence in
order, forwarding only audio-type chunks to `audio_q`; a per-sentence
failure is caught, so the worker just moves on to the next sentence. -/
def tts_worker (synth : List Char → List TTSEvent)
    (sentences : List (List Char)) : List AudioChunk :=
  (sentences.map (fun s => (synth s).filterMap audioOf)).flatten

/-- An SSE audio chunk as the consumer yields it: payload plus the
overwritten global `chunk_index` (main.py:564-565; the first chunk's timing
fields are not modelled). -/
structure SSEChunk where
  payload : List Char
  chunkIndex : Nat
deriving DecidableEq

/-- main.py:554-581: the consumer loop numbers the chunks of `audio_q`
1, 2, 3, … and forwards them. -/
def consume (chunks : List AudioChunk) : List SSEChunk :=
  chunks.enum.map (fun p => ⟨p.2.payload, p.1 + 1⟩)

/-- A JSON value of the done event: a string, an integer, a parsed metadata
value, or null (used for every unmodelled wall-clock timing). -/
inductive JVal where
  | jStr : List Char → JVal
  | jInt : Int → JVal
  | jMeta : NVal → JVal
  | jNull : JVal
deriving DecidableEq

/-- main.py:601-615: the terminal done event, key for key.  Timing values
(`llm_time_ms`, `first_sentence_ms`, `tts_total_ms`, `pipeline_total_ms`,
`pipeline_first_audio_ms`) are wall-clock and carried as null. -/
def doneEventDict (info : Option LLMDone) (chunkCount : Nat) :
    List (List Char × JVal) :=
  let npcText := (info.map LLMDone.full_text).getD []
  let nov := (info.map LLMDone.novoice).getD []
  [("type".data, JVal.jStr "done".data),
   ("npc_text".data, JVal.jStr npcText),
   ("action".data, JVal.jMeta ((lookupA nov "action".data).getD (NVal.strV []))),
   ("price".data, JVal.jMeta ((lookupA nov "price".data).getD (NVal.intV 0))),
   ("mood".data, JVal.jMeta ((lookupA nov "mood".data).getD (NVal.strV []))),
   ("note".data, JVal.jMeta ((lookupA nov "note".data).getD (NVal.strV []))),
   ("llm_time_ms".data, JVal.jNull),
   ("first_sentence_ms".data, JVal.jNull),
   ("sentence_count".data, JVal.jInt ((info.map (fun i => (i.sentence_count : Int))).getD 0)),
   ("tts_total_ms".data, JVal.jNull),
   ("chunk_count".data, JVal.jInt (chunkCount : Int)),
   ("pipeline_total_ms".data, JVal.jNull),
   ("pipeline_first_audio_ms".data, JVal.jNull)]

/-- What one whole pipeline run delivers to the SSE consumer. -/
structure PipeResult where
  chunks : List SSEChunk
  doneEvent : List (List Char × JVal)
  producerError : Option (List Char)
deriving DecidableEq

/-- One run of `_create_streaming_sse_generator`'s data path: producer,
sequential TTS worker, numbering consumer, terminal done event
(`chunk_count` is the final `global_chunk_index`).  `producerError` is the
`error` entry left inside the internal `llm_done_info` dict. -/
def pipelineRun (synth : List Char → List TTSEvent) (stream : LLMStream) :
    PipeResult :=
  let pr := llm_producer stream
  let out := consume (tts_worker synth (sentencesOf pr.queue))
  ⟨out, doneEventDict pr.info out.length, pr.error⟩

/-! ### Whitespace and `strip` lemmas -/

theorem wsOnly_nil : WsOnly [] := by intro c hc; cases hc

theorem wsOnly_append {u v : List Char} (hu : WsOnly u) (hv : WsOnly v) :
    WsOnly (u ++ v) := by
  intro c hc
  rcases List.mem_append.1 hc with h | h
  · exact hu c h
  · exact hv c h

theorem wsOnly_of_append_left {u v : List Char} (h : WsOnly (u ++ v)) : WsOnly u := by
  intro c hc; exact h c (List.mem_append.2 (Or.inl hc))

theorem wsOnly_of_append_right {u v : List Char} (h : WsOnly (u ++ v)) : WsOnly v := by
  intro c hc; exact h c (List.mem_append.2 (Or.inr hc))

theorem wsOnly_reverse {l : List Char} (h : WsOnly l) : WsOnly l.reverse := by
  intro c hc; exact h c (List.mem_reverse.1 hc)

theorem ws_not_term {c : Char} (h : isWsChar c = true) : isTermChar c = false := by
  simp only [isWsChar, Bool.or_eq_true, decide_eq_true_eq] at h
  rcases h with ((((h | h) | h) | h) | h) | h <;> subst h <;> decide

theorem dropWhile_ws_append {w l : List Char} (hw : WsOnly w) :
    (w ++ l).dropWhile isWsChar = l.dropWhile isWsChar :=
  List.dropWhile_append_of_pos hw

theorem strip_ws_append {w l : List Char} (hw : WsOnly w) :
    strip (w ++ l) = strip l := by
  simp only [strip, dropWhile_ws_append hw]

theorem strip_wsOnly {l : List Char} (h : WsOnly l) : strip l = [] := by
  simp only [strip]
  rw [List.dropWhile_eq_nil_iff.2 h]
  simp

theorem strip_eq_nil_iff {l : List Char} : strip l = [] ↔ WsOnly l := by
  constructor
  · intro h
    have hdecomp := List.takeWhile_append_dropWhile (p := isWsChar) (l := l)
    have h1 : (l.dropWhile isWsChar).reverse.dropWhile isWsChar = [] := by
      have := congrArg List.reverse h
      simpa [strip] using this
    have h2 : WsOnly (l.dropWhile isWsChar).reverse :=
      List.dropWhile_eq_nil_iff.1 h1
    have h3 : WsOnly (l.dropWhile isWsChar) := by
      intro c hc; exact h2 c (List.mem_reverse.2 hc)
    have h4 : WsOnly (l.takeWhile isWsChar) := by
      intro c hc; exact List.mem_takeWhile_imp hc
    rw [← hdecomp]
    exact wsOnly_append h4 h3
  · exact strip_wsOnly

theorem strip_ne_nil_of_append_left {y q : List Char} (hy : ¬ WsOnly y) :
    strip (y ++ q) ≠ [] := by
  intro h
  exact hy (wsOnly_of_append_left (strip_eq_nil_iff.1 h))

/-! ### Split-machine basics -/

theorem splitStep_def (s : SplitSt) (c : Char) :
    splitStep s c = ⟨s.done ++ emitOf s.cur c, curStep s.cur c⟩ := rfl

/-- The `done` component is write-only: folding from `⟨D, cur⟩` appends to `D`
whatever folding from `⟨[], cur⟩` produces. -/
theorem splitFold_frame (z : List Char) (D : List (List Char)) (cur : Option (List Char)) :
    z.foldl splitStep ⟨D, cur⟩ =
      ⟨D ++ (z.foldl splitStep ⟨[], cur⟩).done, (z.foldl splitStep ⟨[], cur⟩).cur⟩ := by
  induction z generalizing D cur with
  | nil => simp
  | cons c z ih =>
    have h1 := ih (D ++ emitOf cur c) (curStep cur c)
    have h2 := ih (emitOf cur c) (curStep cur c)
    simp only [List.foldl_cons]
    show z.foldl splitStep ⟨D ++ emitOf cur c, curStep cur c⟩ =
      ⟨D ++ (z.foldl splitStep ⟨emitOf cur c, curStep cur c⟩).done,
       (z.foldl splitStep ⟨emitOf cur c, curStep cur c⟩).cur⟩
    rw [h1, h2]
    simp [List.append_assoc]

theorem splitRun_append (u v : List Char) :
    splitRun (u ++ v) = v.foldl splitStep (splitRun u) := by
  simp [splitRun, List.foldl_append]

/-- `noBndAcc a`: read newest-first, the accumulator contains no
sentence boundary (no whitespace character directly on top of a
terminal character). -/
def noBndAcc : List Char → Bool
  | [] => true
  | c :: a => !(isWsChar c && headTerm a) && noBndAcc a

theorem noBndAcc_suffix {u v : List Char} (h : noBndAcc (u ++ v) = true) :
    noBndAcc v = true := by
  induction u with
  | nil => simpa using h
  | cons c u ih =>
    simp only [List.cons_append, noBndAcc, Bool.and_eq_true] at h
    exact ih h.2

theorem noBndAcc_wsOnly {l : List Char} (h : WsOnly l) : noBndAcc l = true := by
  induction l with
  | nil => rfl
  | cons c l ih =>
    have hc : isWsChar c = true := h c (List.mem_cons_self _ _)
    have hl : WsOnly l := fun d hd => h d (List.mem_cons_of_mem _ hd)
    simp only [noBndAcc, Bool.and_eq_true, Bool.not_eq_true']
    refine ⟨?_, ih hl⟩
    cases l with
    | nil => simp [headTerm]
    | cons t r =>
      have ht : isWsChar t = true := hl t (List.mem_cons_self _ _)
      simp [headTerm, ws_not_term ht]

/-- Reprocessing a boundary-free stretch from a fresh accumulator just
rebuilds the accumulator: no part is emitted. -/
theorem splitFold_reprocess (l : List Char) :
    ∀ (z acc : List Char) (D : List (List Char)),
      noBndAcc (l.reverse ++ acc) = true →
      (l ++ z).foldl splitStep ⟨D, some acc⟩ = z.foldl splitStep ⟨D, some (l.reverse ++ acc)⟩ := by
  induction l with
  | nil => intro z acc D _; simp
  | cons c l ih =>
    intro z acc D h
    have hsuf : noBndAcc (c :: acc) = true := by
      have : (c :: l).reverse ++ acc = l.reverse ++ ([c] ++ acc) := by simp
      rw [this] at h
      exact noBndAcc_suffix h
    have hne : (isWsChar c && headTerm acc) = false := by
      simp only [noBndAcc, Bool.and_eq_true, Bool.not_eq_true'] at hsuf
      exact hsuf.1
    have hstep : splitStep ⟨D, some acc⟩ c = ⟨D, some (c :: acc)⟩ := by
      simp [splitStep, emitOf, curStep, hne]
    simp only [List.cons_append, List.foldl_cons, hstep]
    have h' : noBndAcc (l.reverse ++ (c :: acc)) = true := by
      have : (c :: l).reverse ++ acc = l.reverse ++ (c :: acc) := by simp
      rwa [this] at h
    rw [ih z (c :: acc) D h']
    have : l.reverse ++ (c :: acc) = (c :: l).reverse ++ acc := by simp
    rw [this]

theorem splitRun_concat (x : List Char) (c : Char) :
    splitRun (x ++ [c]) = splitStep (splitRun x) c := by
  simp [splitRun, List.foldl_append]

/-- Structural invariants of the splitter scan over input `x`:
the open accumulator is boundary-free and is the reversed suffix of `x`
that follows the last matched separator run (which ends in whitespace);
a closed accumulator means a part was emitted and `x` ends in whitespace;
no emitted part means the accumulator holds all of `x`. -/
def SInv (x : List Char) (s : SplitSt) : Prop :=
  (∀ a, s.cur = some a →
      noBndAcc a = true ∧
      ∃ y, x = y ++ a.reverse ∧
        ((y = [] ∧ s.done = []) ∨ splitRun y = ⟨s.done, none⟩) ∧
        (y = [] ∨ ∃ y' c, y = y' ++ [c] ∧ isWsChar c = true)) ∧
  (s.cur = none → s.done ≠ [] ∧ ∃ x' c, x = x' ++ [c] ∧ isWsChar c = true) ∧
  (s.done = [] → s.cur = some x.reverse)

theorem splitRun_inv (x : List Char) : SInv x (splitRun x) := by
  induction x using List.reverseRecOn with
  | nil =>
    refine ⟨?_, ?_, ?_⟩
    · intro a ha
      have : a = [] := by
        have : (some [] : Option (List Char)) = some a := ha
        exact (Option.some.inj this).symm
      subst this
      exact ⟨rfl, [], rfl, Or.inl ⟨rfl, rfl⟩, Or.inl rfl⟩
    · intro h; cases h
    · intro _; rfl
  | append_singleton x c ih =>
    rw [splitRun_concat]
    rcases hcur : (splitRun x).cur with _ | a
    · -- previous scan state: inside a separator run
      have hnone := ih.2.1 hcur
      by_cases hws : isWsChar c = true
      · -- stay inside the separator
        have hstep : splitStep (splitRun x) c = ⟨(splitRun x).done, none⟩ := by
          simp [splitStep, emitOf, curStep, hcur, hws]
        rw [hstep]
        refine ⟨?_, ?_, ?_⟩
        · intro a ha; cases ha
        · intro _; exact ⟨hnone.1, x, c, rfl, hws⟩
        · intro hd
          exact absurd (hcur.symm.trans (ih.2.2 hd)) (by simp)
      · -- a new part starts with `c`
        have hstep : splitStep (splitRun x) c = ⟨(splitRun x).done, some [c]⟩ := by
          simp [splitStep, emitOf, curStep, hcur, hws]
        rw [hstep]
        refine ⟨?_, ?_, ?_⟩
        · intro a ha
          have ha' : a = [c] := (Option.some.inj ha).symm
          subst ha'
          refine ⟨by simp [noBndAcc, headTerm], x, by simp, ?_, Or.inr hnone.2⟩
          right
          have : splitRun x = ⟨(splitRun x).done, (splitRun x).cur⟩ := rfl
          rw [hcur] at this
          exact this
        · intro h; cases h
        · intro hd
          exact absurd (hcur.symm.trans (ih.2.2 hd)) (by simp)
    · -- previous scan state: open part `a.reverse`
      obtain ⟨hnb, y, hx, hdisj, hyws⟩ := ih.1 a hcur
      by_cases he : (isWsChar c && headTerm a) = true
      · -- boundary: emit the part, enter a separator
        have hstep : splitStep (splitRun x) c =
            ⟨(splitRun x).done ++ [a.reverse], none⟩ := by
          simp [splitStep, emitOf, curStep, hcur, he]
        rw [hstep]
        refine ⟨?_, ?_, ?_⟩
        · intro a' ha'; cases ha'
        · intro _
          have he' : isWsChar c = true ∧ headTerm a = true := by simpa using he
          exact ⟨by simp, x, c, rfl, he'.1⟩
        · intro hd; exact absurd hd (by simp)
      · -- no boundary: extend the part
        have hstep : splitStep (splitRun x) c =
            ⟨(splitRun x).done, some (c :: a)⟩ := by
          simp only [splitStep, emitOf, curStep, hcur]
          rw [if_neg (by simp [he]), if_neg (by simp [he])]
          simp
        rw [hstep]
        refine ⟨?_, ?_, ?_⟩
        · intro a' ha'
          have ha'' : a' = c :: a := (Option.some.inj ha').symm
          subst ha''
          refine ⟨?_, y, by simp [hx], hdisj, hyws⟩
          simp [noBndAcc, he, hnb]
        · intro h; cases h
        · intro hd
          have := ih.2.2 hd
          rw [hcur] at this
          have ha : a = x.reverse := Option.some.inj this
          subst ha
          simp

/-- `_split_buffer` in terms of the scan state: the sentences are the
stripped non-empty emitted parts and the new buffer is the still-open part. -/
theorem split_buffer_char (x : List Char) :
    split_buffer x = (((splitRun x).done.map strip).filter (fun p => p ≠ []),
                      curPart (splitRun x).cur) := by
  unfold split_buffer splitParts
  rcases hD : (splitRun x).done with _ | ⟨p, ps⟩
  · have hcur := (splitRun_inv x).2.2 hD
    rw [hcur]
    simp [curPart]
  · have hlen : ((p :: ps) ++ [curPart (splitRun x).cur]).length ≤ 1 ↔ False := by
      simp
    rw [if_neg (by simp)]
    rw [List.dropLast_concat, List.getLastD_concat]

theorem splitRun_wsOnly {w : List Char} (hw : WsOnly w) :
    splitRun w = ⟨[], some w.reverse⟩ := by
  have h := splitFold_reprocess w [] [] []
    (by simpa using noBndAcc_wsOnly (wsOnly_reverse hw))
  simpa [splitRun] using h

/-! ### The whitespace-orphan simulation on scan states

When a buffer is cut and reprocessed, a separator run that was split by the
cut leaves orphaned whitespace at the start of the restarted side's open
part.  `relCur side₁ side₂` says `side₂` carries exactly such extra
whitespace. -/

def relCur : Option (List Char) → Option (List Char) → Prop
  | none, none => True
  | some a, some b => ∃ w, WsOnly w ∧ b = a ++ w
  | none, some b => WsOnly b
  | some _, none => False

def relst (s₁ s₂ : SplitSt) : Prop :=
  s₁.done.map strip = s₂.done.map strip ∧ relCur s₁.cur s₂.cur

theorem relCur_refl (c : Option (List Char)) : relCur c c := by
  cases c with
  | none => trivial
  | some a => exact ⟨[], wsOnly_nil, by simp⟩

theorem headTerm_append_ws {a w : List Char} (hw : WsOnly w) :
    headTerm (a ++ w) = headTerm a := by
  cases a with
  | nil =>
    cases w with
    | nil => rfl
    | cons t r =>
      have ht := hw t (List.mem_cons_self _ _)
      simp [headTerm, ws_not_term ht]
  | cons t r => rfl

theorem headTerm_wsOnly {b : List Char} (hb : WsOnly b) : headTerm b = false := by
  cases b with
  | nil => rfl
  | cons t r =>
    have ht := hb t (List.mem_cons_self _ _)
    simp [headTerm, ws_not_term ht]

theorem bool_ne_true {b : Bool} (h : b = false) : ¬(b = true) := by simp [h]

theorem relCur_step {c₁ c₂ : Option (List Char)} (h : relCur c₁ c₂) (ch : Char) :
    relCur (curStep c₁ ch) (curStep c₂ ch) ∧
    (emitOf c₁ ch).map strip = (emitOf c₂ ch).map strip := by
  match c₁, c₂ with
  | none, none =>
    refine ⟨?_, rfl⟩
    show relCur (if isWsChar ch then none else some [ch]) (if isWsChar ch then none else some [ch])
    by_cases hws : isWsChar ch = true
    · rw [if_pos hws]; trivial
    · rw [if_neg hws]; exact relCur_refl _
  | some a, some b =>
    obtain ⟨w, hw, rfl⟩ := h
    have hht : headTerm (a ++ w) = headTerm a := headTerm_append_ws hw
    by_cases he : (isWsChar ch && headTerm a) = true
    · have he2 : (isWsChar ch && headTerm (a ++ w)) = true := by rw [hht]; exact he
      refine ⟨?_, ?_⟩
      · show relCur (if isWsChar ch && headTerm a then none else some (ch :: a))
          (if isWsChar ch && headTerm (a ++ w) then none else some (ch :: (a ++ w)))
        rw [if_pos he, if_pos he2]; trivial
      · show List.map strip (if isWsChar ch && headTerm a then [a.reverse] else []) =
          List.map strip (if isWsChar ch && headTerm (a ++ w) then [(a ++ w).reverse] else [])
        rw [if_pos he, if_pos he2]
        simp only [List.map_cons, List.map_nil]
        rw [List.reverse_append, strip_ws_append (wsOnly_reverse hw)]
    · have he' : (isWsChar ch && headTerm a) = false := Bool.eq_false_iff.2 he
      have he2 : (isWsChar ch && headTerm (a ++ w)) = false := by rw [hht]; exact he'
      refine ⟨?_, ?_⟩
      · show relCur (if isWsChar ch && headTerm a then none else some (ch :: a))
          (if isWsChar ch && headTerm (a ++ w) then none else some (ch :: (a ++ w)))
        rw [if_neg he, if_neg (bool_ne_true he2)]
        exact ⟨w, hw, by simp⟩
      · show List.map strip (if isWsChar ch && headTerm a then [a.reverse] else []) =
          List.map strip (if isWsChar ch && headTerm (a ++ w) then [(a ++ w).reverse] else [])
        rw [if_neg he, if_neg (bool_ne_true he2)]
  | none, some b =>
    have hb : WsOnly b := h
    have hbt : headTerm b = false := headTerm_wsOnly hb
    have he2 : (isWsChar ch && headTerm b) = false := by simp [hbt]
    refine ⟨?_, ?_⟩
    · show relCur (if isWsChar ch then none else some [ch])
        (if isWsChar ch && headTerm b then none else some (ch :: b))
      rw [if_neg (bool_ne_true he2)]
      by_cases hws : isWsChar ch = true
      · rw [if_pos hws]
        show WsOnly (ch :: b)
        intro d hd
        rcases List.mem_cons.1 hd with h | h
        · subst h; exact hws
        · exact hb d h
      · rw [if_neg hws]
        exact ⟨b, hb, rfl⟩
    · show List.map strip [] =
        List.map strip (if isWsChar ch && headTerm b then [b.reverse] else [])
      rw [if_neg (bool_ne_true he2)]

theorem relst_step {s₁ s₂ : SplitSt} (h : relst s₁ s₂) (ch : Char) :
    relst (splitStep s₁ ch) (splitStep s₂ ch) := by
  obtain ⟨hdone, hcur⟩ := h
  obtain ⟨hcur', hemit⟩ := relCur_step hcur ch
  exact ⟨by simp [splitStep, hdone, hemit], hcur'⟩

theorem relst_fold {s₁ s₂ : SplitSt} (h : relst s₁ s₂) (z : List Char) :
    relst (z.foldl splitStep s₁) (z.foldl splitStep s₂) := by
  induction z generalizing s₁ s₂ with
  | nil => exact h
  | cons c z ih => exact ih (relst_step h c)

theorem relCur_strip_curPart {c₁ c₂ : Option (List Char)} (h : relCur c₁ c₂) :
    strip (curPart c₁) = strip (curPart c₂) := by
  match c₁, c₂ with
  | none, none => rfl
  | some a, some b =>
    obtain ⟨w, hw, rfl⟩ := h
    simp only [curPart, List.reverse_append]
    rw [strip_ws_append (wsOnly_reverse hw)]
  | none, some b =>
    have hb : WsOnly b := h
    simp only [curPart]
    rw [strip_wsOnly (wsOnly_reverse hb)]
    decide
  | some _, none => cases h

theorem relCur_relBuf {c₁ c₂ : Option (List Char)} (h : relCur c₁ c₂) :
    ∃ w, WsOnly w ∧ curPart c₂ = w ++ curPart c₁ := by
  match c₁, c₂ with
  | none, none => exact ⟨[], wsOnly_nil, rfl⟩
  | some a, some b =>
    obtain ⟨w, hw, rfl⟩ := h
    exact ⟨w.reverse, wsOnly_reverse hw, by simp [curPart]⟩
  | none, some b =>
    exact ⟨b.reverse, wsOnly_reverse h, by simp [curPart]⟩
  | some _, none => cases h

/-! ### Substring search (`"<novoice>" in buffer`, `buffer.index(...)`) -/

theorem findSub_some_prefixOf {pat l : List Char} {i : Nat}
    (h : findSubIdx pat l = some i) : pat.isPrefixOf (l.drop i) = true := by
  induction l generalizing i with
  | nil =>
    by_cases hp : pat = []
    · subst hp
      simp [List.isPrefixOf]
    · simp [findSubIdx, hp] at h
  | cons c rest ih =>
    by_cases hp : pat.isPrefixOf (c :: rest) = true
    · have heq : some 0 = some i := by simpa [findSubIdx, hp] using h
      have hi : i = 0 := (Option.some.inj heq).symm
      subst hi
      simpa using hp
    · simp only [findSubIdx, if_neg hp] at h
      rcases hrec : findSubIdx pat rest with _ | j
      · rw [hrec] at h; simp at h
      · rw [hrec] at h
        simp only [Option.map_some'] at h
        have hi : j + 1 = i := Option.some.inj h
        subst hi
        simpa using ih hrec

theorem findSub_some_min {pat l : List Char} {i : Nat}
    (h : findSubIdx pat l = some i) :
    ∀ j < i, pat.isPrefixOf (l.drop j) = false := by
  induction l generalizing i with
  | nil =>
    by_cases hp : pat = []
    · subst hp
      have heq : some 0 = some i := by simpa [findSubIdx] using h
      have hi : i = 0 := (Option.some.inj heq).symm
      subst hi
      intro j hj; omega
    · simp [findSubIdx, hp] at h
  | cons c rest ih =>
    by_cases hp : pat.isPrefixOf (c :: rest) = true
    · have heq : some 0 = some i := by simpa [findSubIdx, hp] using h
      have hi : i = 0 := (Option.some.inj heq).symm
      subst hi
      intro j hj; omega
    · simp only [findSubIdx, if_neg hp] at h
      rcases hrec : findSubIdx pat rest with _ | j0
      · rw [hrec] at h; simp at h
      · rw [hrec] at h
        simp only [Option.map_some'] at h
        have hi : j0 + 1 = i := Option.some.inj h
        subst hi
        intro j hj
        cases j with
        | zero => simpa using Bool.eq_false_iff.2 hp
        | succ j' =>
          have hj' : j' < j0 := by omega
          simpa using ih hrec j' hj'

theorem findSub_none_all {pat l : List Char} (hpat : pat ≠ [])
    (h : findSubIdx pat l = none) :
    ∀ j, pat.isPrefixOf (l.drop j) = false := by
  induction l with
  | nil =>
    intro j
    rw [List.drop_nil]
    cases hp : pat.isPrefixOf [] with
    | false => rfl
    | true =>
      exact absurd (List.prefix_nil.1 (List.isPrefixOf_iff_prefix.1 hp)) hpat
  | cons c rest ih =>
    by_cases hp : pat.isPrefixOf (c :: rest) = true
    · simp [findSubIdx, hp] at h
    · simp only [findSubIdx, if_neg hp] at h
      have hrec : findSubIdx pat rest = none := by
        rcases hx : findSubIdx pat rest with _ | j0
        · rfl
        · rw [hx] at h; simp at h
      intro j
      cases j with
      | zero => simpa using Bool.eq_false_iff.2 hp
      | succ j' => simpa using ih hrec j'

theorem findSub_first {pat l : List Char} {i : Nat}
    (hpre : pat.isPrefixOf (l.drop i) = true)
    (hmin : ∀ j < i, pat.isPrefixOf (l.drop j) = false) :
    findSubIdx pat l = some i := by
  induction l generalizing i with
  | nil =>
    have hp : pat = [] := by
      rw [List.drop_nil] at hpre
      exact List.prefix_nil.1 (List.isPrefixOf_iff_prefix.1 hpre)
    subst hp
    cases i with
    | zero => simp [findSubIdx]
    | succ i' =>
      have := hmin 0 (by omega)
      rw [List.drop_nil] at this
      simp [List.isPrefixOf] at this
  | cons c rest ih =>
    cases i with
    | zero =>
      rw [List.drop_zero] at hpre
      simp [findSubIdx, hpre]
    | succ i' =>
      have hp0 : pat.isPrefixOf (c :: rest) = false := by
        simpa using hmin 0 (by omega)
      rw [findSubIdx, if_neg (bool_ne_true hp0)]
      have hpre' : pat.isPrefixOf (rest.drop i') = true := by simpa using hpre
      have hmin' : ∀ j < i', pat.isPrefixOf (rest.drop j) = false := by
        intro j hj
        simpa using hmin (j + 1) (by omega)
      rw [ih hpre' hmin']
      rfl

theorem findSub_ws_shift {w x : List Char} {p : Char} {pr : List Char}
    (hw : WsOnly w) (hp : isWsChar p = false) :
    findSubIdx (p :: pr) (w ++ x) = (findSubIdx (p :: pr) x).map (· + w.length) := by
  induction w with
  | nil =>
    simp only [List.nil_append, List.length_nil]
    cases hx : findSubIdx (p :: pr) x <;> simp
  | cons c w ih =>
    have hc : isWsChar c = true := hw c (List.mem_cons_self _ _)
    have hw' : WsOnly w := fun d hd => hw d (List.mem_cons_of_mem _ hd)
    have hpc : (p == c) = false := by
      have : p ≠ c := by
        intro h; rw [h] at hp; rw [hp] at hc; cases hc
      simpa using this
    have hpre : (p :: pr).isPrefixOf (c :: (w ++ x)) = false := by
      show (p == c && pr.isPrefixOf (w ++ x)) = false
      simp [hpc]
    rw [List.cons_append, findSubIdx, if_neg (bool_ne_true hpre), ih hw']
    cases findSubIdx (p :: pr) x with
    | none => rfl
    | some j =>
      simp only [Option.map_some, Option.map_map]
      have : j + (w.length + 1) = j + w.length + 1 := by omega
      simp [List.length_cons, Function.comp, this]

theorem novoiceTag_cons : novoiceTag = '<' :: "novoice>".data := by decide

theorem novoiceTag_head_not_ws : isWsChar '<' = false := by decide

theorem novoiceTag_not_ws : ∀ c ∈ novoiceTag, isWsChar c = false := by decide

theorem novoiceTag_ne_nil : novoiceTag ≠ [] := by decide

/-- Characters covered by an occurrence of `pat` at position `j`. -/
theorem prefixOf_drop_getElem {pat l : List Char} {j : Nat}
    (h : pat.isPrefixOf (l.drop j) = true) :
    ∀ off, off < pat.length → l[j + off]? = pat[off]? := by
  intro off hoff
  obtain ⟨t, ht⟩ := List.isPrefixOf_iff_prefix.1 h
  have h1 : (l.drop j)[off]? = l[j + off]? := List.getElem?_drop l j off
  rw [← h1, ← ht]
  exact List.getElem?_append_left hoff

theorem findSub_tag_ws_shift {w x : List Char} (hw : WsOnly w) :
    findSubIdx novoiceTag (w ++ x) = (findSubIdx novoiceTag x).map (· + w.length) := by
  rw [novoiceTag_cons]
  exact findSub_ws_shift hw (by decide)

/-! ### Emission helpers -/

theorem emitOne_frame (st : SegState) (s : List Char) :
    (emitOne st s).buffer = st.buffer ∧ (emitOne st s).novoiceBuffer = st.novoiceBuffer ∧
    (emitOne st s).inNovoice = st.inNovoice := by
  unfold emitOne
  by_cases h : strip s ≠ [] <;> simp [h]

theorem emitSents_frame (st : SegState) (l : List (List Char)) :
    (emitSents st l).buffer = st.buffer ∧ (emitSents st l).novoiceBuffer = st.novoiceBuffer ∧
    (emitSents st l).inNovoice = st.inNovoice := by
  induction l generalizing st with
  | nil => exact ⟨rfl, rfl, rfl⟩
  | cons s l ih =>
    have h1 := emitOne_frame st s
    have h2 := ih (emitOne st s)
    exact ⟨h2.1.trans h1.1, h2.2.1.trans h1.2.1, h2.2.2.trans h1.2.2⟩

theorem emitOne_congr {st₁ st₂ : SegState} (hidx : st₁.sentenceIndex = st₂.sentenceIndex)
    (hev : st₁.events = st₂.events) (s : List Char) :
    (emitOne st₁ s).sentenceIndex = (emitOne st₂ s).sentenceIndex ∧
    (emitOne st₁ s).events = (emitOne st₂ s).events := by
  unfold emitOne
  by_cases h : strip s ≠ [] <;> simp [h, hidx, hev]

theorem emitSents_congr (stA stB : SegState) (l : List (List Char))
    (hidx : stA.sentenceIndex = stB.sentenceIndex) (hev : stA.events = stB.events) :
    (emitSents stA l).sentenceIndex = (emitSents stB l).sentenceIndex ∧
    (emitSents stA l).events = (emitSents stB l).events := by
  induction l generalizing stA stB with
  | nil => exact ⟨hidx, hev⟩
  | cons s l ih =>
    have h1 := emitOne_congr hidx hev s
    exact ih _ _ h1.1 h1.2

theorem emitSents_append (st : SegState) (l₁ l₂ : List (List Char)) :
    emitSents st (l₁ ++ l₂) = emitSents (emitSents st l₁) l₂ := by
  simp [emitSents, List.foldl_append]

/-! ### `feedDelta` branch shapes -/

theorem feed_inNov {st : SegState} (h : st.inNovoice = true) (d : List Char) :
    feedDelta st d = { st with novoiceBuffer := st.novoiceBuffer ++ d } := by
  simp [feedDelta, h]

theorem feed_normal {st : SegState} (h : st.inNovoice = false) (d : List Char)
    (hno : findSubIdx novoiceTag (st.buffer ++ d) = none) :
    feedDelta st d =
      { emitSents st (split_buffer (st.buffer ++ d)).1 with
        buffer := (split_buffer (st.buffer ++ d)).2 } := by
  simp [feedDelta, h, hno]

theorem feed_tag {st : SegState} (h : st.inNovoice = false) (d : List Char) {i : Nat}
    (hi : findSubIdx novoiceTag (st.buffer ++ d) = some i) :
    feedDelta st d = tagBranch st (st.buffer ++ d) i := by
  simp [feedDelta, h, hi]

/-! ### The segmenter simulation relation -/

/-- Buffers that agree up to orphaned leading whitespace
(the multi-delta side may carry extra). -/
def relBuf (b₁ b₂ : List Char) : Prop := ∃ w, WsOnly w ∧ b₂ = w ++ b₁

theorem relBuf_refl (b : List Char) : relBuf b b := ⟨[], wsOnly_nil, rfl⟩

theorem relBuf_strip {b₁ b₂ : List Char} (h : relBuf b₁ b₂) : strip b₁ = strip b₂ := by
  obtain ⟨w, hw, rfl⟩ := h
  rw [strip_ws_append hw]

/-- `RSeg st₁ st₂`: same observable segmenter behaviour so far (events,
index, metadata mode and metadata buffer); the pending buffers agree up to
orphaned leading whitespace.  `st₁` is the one-shot side, `st₂` the
finer-grained side. -/
def RSeg (st₁ st₂ : SegState) : Prop :=
  st₁.inNovoice = st₂.inNovoice ∧ st₁.sentenceIndex = st₂.sentenceIndex ∧
  st₁.events = st₂.events ∧ st₁.novoiceBuffer = st₂.novoiceBuffer ∧
  relBuf st₁.buffer st₂.buffer

theorem RSeg_refl (st : SegState) : RSeg st st :=
  ⟨rfl, rfl, rfl, rfl, relBuf_refl _⟩

theorem RSeg_trans {s₁ s₂ s₃ : SegState} (h₁ : RSeg s₁ s₂) (h₂ : RSeg s₂ s₃) :
    RSeg s₁ s₃ := by
  obtain ⟨ha, hb, hc, hd, w, hw, hbuf⟩ := h₁
  obtain ⟨ha', hb', hc', hd', w', hw', hbuf'⟩ := h₂
  exact ⟨ha.trans ha', hb.trans hb', hc.trans hc', hd.trans hd',
    ⟨w' ++ w, wsOnly_append hw' hw, by rw [hbuf', hbuf, List.append_assoc]⟩⟩

theorem splitRun_ws_append {w x : List Char} (hw : WsOnly w) :
    splitRun (w ++ x) = x.foldl splitStep ⟨[], some w.reverse⟩ := by
  rw [splitRun_append, splitRun_wsOnly hw]

theorem relst_splitRun_ws {w x : List Char} (hw : WsOnly w) :
    relst (splitRun x) (splitRun (w ++ x)) := by
  rw [splitRun_ws_append hw]
  have hbase : relst ⟨[], some []⟩ ⟨[], some w.reverse⟩ := by
    refine ⟨rfl, ?_⟩
    show relCur (some []) (some w.reverse)
    exact ⟨w.reverse, wsOnly_reverse hw, by simp⟩
  exact relst_fold hbase x

theorem relst_sentences {x₁ x₂ : List Char}
    (h : relst (splitRun x₁) (splitRun x₂)) :
    (split_buffer x₁).1 = (split_buffer x₂).1 := by
  rw [split_buffer_char, split_buffer_char]
  simp [h.1]

theorem relst_rem {x₁ x₂ : List Char}
    (h : relst (splitRun x₁) (splitRun x₂)) :
    relBuf (split_buffer x₁).2 (split_buffer x₂).2 := by
  rw [split_buffer_char, split_buffer_char]
  exact relCur_relBuf h.2

/-- Congruence: feeding the same delta to related segmenter states yields
related states (the orphaned leading whitespace in the buffer never changes
which sentences are emitted). -/
theorem RSeg_feed {st₁ st₂ : SegState} (h : RSeg st₁ st₂) (d : List Char) :
    RSeg (feedDelta st₁ d) (feedDelta st₂ d) := by
  obtain ⟨hnov, hidx, hev, hnb, w, hw, hbuf⟩ := h
  cases hn : st₁.inNovoice with
  | true =>
    have hn₂ : st₂.inNovoice = true := by rw [← hnov, hn]
    rw [feed_inNov hn, feed_inNov hn₂]
    refine ⟨by simpa using hnov, hidx, hev, by simp [hnb], ?_⟩
    exact ⟨w, hw, by simpa using hbuf⟩
  | false =>
    have hn₂ : st₂.inNovoice = false := by rw [← hnov, hn]
    have hbuf2 : st₂.buffer ++ d = w ++ (st₁.buffer ++ d) := by
      rw [hbuf, List.append_assoc]
    have hshift := findSub_tag_ws_shift (x := st₁.buffer ++ d) hw
    have hrelst : relst (splitRun (st₁.buffer ++ d)) (splitRun (w ++ (st₁.buffer ++ d))) :=
      relst_splitRun_ws hw
    cases hfind : findSubIdx novoiceTag (st₁.buffer ++ d) with
    | none =>
      have hfind₂ : findSubIdx novoiceTag (st₂.buffer ++ d) = none := by
        rw [hbuf2, hshift, hfind]; rfl
      rw [feed_normal hn d hfind, feed_normal hn₂ d hfind₂]
      have hsents : (split_buffer (st₁.buffer ++ d)).1 = (split_buffer (st₂.buffer ++ d)).1 := by
        rw [hbuf2]; exact relst_sentences hrelst
      have hrem : relBuf (split_buffer (st₁.buffer ++ d)).2 (split_buffer (st₂.buffer ++ d)).2 := by
        rw [hbuf2]; exact relst_rem hrelst
      have hfr₁ := emitSents_frame st₁ (split_buffer (st₁.buffer ++ d)).1
      have hfr₂ := emitSents_frame st₂ (split_buffer (st₂.buffer ++ d)).1
      have hcong := emitSents_congr st₁ st₂ (split_buffer (st₁.buffer ++ d)).1 hidx hev
      refine ⟨?_, ?_, ?_, ?_, ?_⟩
      · show (emitSents st₁ _).inNovoice = (emitSents st₂ _).inNovoice
        rw [hfr₁.2.2, hfr₂.2.2, hn, hn₂]
      · show (emitSents st₁ _).sentenceIndex = (emitSents st₂ _).sentenceIndex
        rw [← hsents]; exact hcong.1
      · show (emitSents st₁ _).events = (emitSents st₂ _).events
        rw [← hsents]; exact hcong.2
      · show (emitSents st₁ _).novoiceBuffer = (emitSents st₂ _).novoiceBuffer
        rw [hfr₁.2.1, hfr₂.2.1, hnb]
      · exact hrem
    | some i =>
      have hfind₂ : findSubIdx novoiceTag (st₂.buffer ++ d) = some (i + w.length) := by
        rw [hbuf2, hshift, hfind]; rfl
      rw [feed_tag hn d hfind, feed_tag hn₂ d hfind₂]
      have hcomm : i + w.length = w.length + i := by omega
      have hbefore : (st₂.buffer ++ d).take (i + w.length) = w ++ (st₁.buffer ++ d).take i := by
        rw [hbuf2, hcomm, List.take_append]
      have hdropeq : (st₂.buffer ++ d).drop (i + w.length) = (st₁.buffer ++ d).drop i := by
        rw [hbuf2, hcomm, List.drop_append]
      have hstripb : strip (w ++ (st₁.buffer ++ d).take i) = strip ((st₁.buffer ++ d).take i) :=
        strip_ws_append hw
      simp only [tagBranch]
      rw [hbefore, hdropeq, hstripb]
      have hrelb : relst (splitRun ((st₁.buffer ++ d).take i))
          (splitRun (w ++ (st₁.buffer ++ d).take i)) := relst_splitRun_ws hw
      have hsentsb : (split_buffer ((st₁.buffer ++ d).take i)).1 =
          (split_buffer (w ++ (st₁.buffer ++ d).take i)).1 := relst_sentences hrelb
      have hremb : relBuf (split_buffer ((st₁.buffer ++ d).take i)).2
          (split_buffer (w ++ (st₁.buffer ++ d).take i)).2 := relst_rem hrelb
      have hstriprem : strip (split_buffer ((st₁.buffer ++ d).take i)).2 =
          strip (split_buffer (w ++ (st₁.buffer ++ d).take i)).2 := relBuf_strip hremb
      by_cases hg : strip ((st₁.buffer ++ d).take i) ≠ []
      · rw [if_pos hg, if_pos hg]
        rw [← hsentsb, ← hstriprem]
        have hcong := emitSents_congr
          { st₁ with buffer := [], novoiceBuffer := (st₁.buffer ++ d).drop i, inNovoice := true }
          { st₂ with buffer := [], novoiceBuffer := (st₁.buffer ++ d).drop i, inNovoice := true }
          (split_buffer ((st₁.buffer ++ d).take i)).1
          (by simpa using hidx) (by simpa using hev)
        have hfr₁ := emitSents_frame
          { st₁ with buffer := [], novoiceBuffer := (st₁.buffer ++ d).drop i, inNovoice := true }
          (split_buffer ((st₁.buffer ++ d).take i)).1
        have hfr₂ := emitSents_frame
          { st₂ with buffer := [], novoiceBuffer := (st₁.buffer ++ d).drop i, inNovoice := true }
          (split_buffer ((st₁.buffer ++ d).take i)).1
        by_cases hg2 : strip (split_buffer ((st₁.buffer ++ d).take i)).2 ≠ []
        · rw [if_pos hg2, if_pos hg2]
          refine ⟨?_, ?_, ?_, ?_, ?_⟩
          · show (emitSents _ _).inNovoice = (emitSents _ _).inNovoice
            rw [hfr₁.2.2, hfr₂.2.2]
          · show (emitSents _ _).sentenceIndex + 1 = (emitSents _ _).sentenceIndex + 1
            rw [hcong.1]
          · show (emitSents _ _).events ++ _ = (emitSents _ _).events ++ _
            rw [hcong.1, hcong.2]
          · show (emitSents _ _).novoiceBuffer = (emitSents _ _).novoiceBuffer
            rw [hfr₁.2.1, hfr₂.2.1]
          · show relBuf (emitSents _ _).buffer (emitSents _ _).buffer
            rw [hfr₁.1, hfr₂.1]
            exact relBuf_refl _
        · rw [if_neg hg2, if_neg hg2]
          refine ⟨?_, hcong.1, hcong.2, ?_, ?_⟩
          · rw [hfr₁.2.2, hfr₂.2.2]
          · rw [hfr₁.2.1, hfr₂.2.1]
          · rw [hfr₁.1, hfr₂.1]
            exact relBuf_refl _
      · rw [if_neg hg, if_neg hg]
        exact ⟨rfl, by simpa using hidx, by simpa using hev, rfl, relBuf_refl _⟩

/-! ### Lemmas for the split/merge of deltas -/

theorem findSub_le {pat l : List Char} {i : Nat} (hpat : pat ≠ [])
    (h : findSubIdx pat l = some i) : i + pat.length ≤ l.length := by
  have hp := List.isPrefixOf_iff_prefix.1 (findSub_some_prefixOf h)
  have hlen := List.IsPrefix.length_le hp
  rw [List.length_drop] at hlen
  have hpos : 0 < pat.length := List.length_pos.2 hpat
  omega

theorem prefix_of_append_of_le {p u v : List Char} (h : p <+: u ++ v)
    (hlen : p.length ≤ u.length) : p <+: u := by
  obtain ⟨t, ht⟩ := h
  have hp : p = (u ++ v).take p.length := by
    rw [← ht, List.take_left']
    rfl
  rw [List.take_append_of_le_length hlen] at hp
  rw [hp]
  exact List.take_prefix _ _

theorem emitOne_congr3 {stA stB : SegState} (hidx : stA.sentenceIndex = stB.sentenceIndex)
    (hev : stA.events = stB.events) (hft : stA.fullText = stB.fullText) (s : List Char) :
    (emitOne stA s).sentenceIndex = (emitOne stB s).sentenceIndex ∧
    (emitOne stA s).events = (emitOne stB s).events ∧
    (emitOne stA s).fullText = (emitOne stB s).fullText := by
  unfold emitOne
  by_cases h : strip s ≠ [] <;> simp [h, hidx, hev, hft]

theorem emitSents_congr3 (stA stB : SegState) (l : List (List Char))
    (hidx : stA.sentenceIndex = stB.sentenceIndex)
    (hev : stA.events = stB.events) (hft : stA.fullText = stB.fullText) :
    (emitSents stA l).sentenceIndex = (emitSents stB l).sentenceIndex ∧
    (emitSents stA l).events = (emitSents stB l).events ∧
    (emitSents stA l).fullText = (emitSents stB l).fullText := by
  induction l generalizing stA stB with
  | nil => exact ⟨hidx, hev, hft⟩
  | cons s l ih =>
    have h1 := emitOne_congr3 hidx hev hft s
    exact ih _ _ h1.1 h1.2.1 h1.2.2

/-- `tagBranch` never reads the incoming metadata buffer: everything except
the `novoiceBuffer` it installs is independent of it, and the installed
buffer is exactly `buf.drop idx`. -/
theorem tagBranch_shape (st : SegState) (buf : List Char) (idx : Nat) :
    (tagBranch st buf idx).inNovoice = true ∧
    (tagBranch st buf idx).novoiceBuffer = buf.drop idx ∧
    (tagBranch st buf idx).buffer = [] := by
  unfold tagBranch
  by_cases hg : strip (buf.take idx) ≠ []
  · rw [if_pos hg]
    have hfr := emitSents_frame
      { st with buffer := [], novoiceBuffer := buf.drop idx, inNovoice := true }
      (split_buffer (buf.take idx)).1
    by_cases hg2 : strip (split_buffer (buf.take idx)).2 ≠ []
    · rw [if_pos hg2]
      exact ⟨by simpa using hfr.2.2, by simpa using hfr.2.1, by simpa using hfr.1⟩
    · rw [if_neg hg2]
      exact ⟨by simpa using hfr.2.2, by simpa using hfr.2.1, by simpa using hfr.1⟩
  · rw [if_neg hg]
    exact ⟨rfl, rfl, rfl⟩

/-- Appending more stream text after the tag position only grows the
installed metadata buffer. -/
theorem tagBranch_append_nov (st : SegState) (x d₂ : List Char) (i : Nat)
    (hi : i ≤ x.length) :
    tagBranch st (x ++ d₂) i = { tagBranch st x i with novoiceBuffer := x.drop i ++ d₂ } := by
  unfold tagBranch
  rw [List.take_append_of_le_length hi, List.drop_append_of_le_length hi]
  have hcongr := emitSents_congr3
    { st with buffer := [], novoiceBuffer := x.drop i ++ d₂, inNovoice := true }
    { st with buffer := [], novoiceBuffer := x.drop i, inNovoice := true }
    (split_buffer (x.take i)).1 rfl rfl rfl
  have hfrA := emitSents_frame
    { st with buffer := [], novoiceBuffer := x.drop i ++ d₂, inNovoice := true }
    (split_buffer (x.take i)).1
  have hfrB := emitSents_frame
    { st with buffer := [], novoiceBuffer := x.drop i, inNovoice := true }
    (split_buffer (x.take i)).1
  by_cases hg : strip (x.take i) ≠ []
  · rw [if_pos hg, if_pos hg]
    by_cases hg2 : strip (split_buffer (x.take i)).2 ≠ []
    · rw [if_pos hg2, if_pos hg2]
      ext : 1
      · simp [hfrA.1, hfrB.1]
      · simp [hcongr.2.2]
      · simp [hcongr.1]
      · simp [hfrA.2.1]
      · simp [hfrA.2.2, hfrB.2.2]
      · simp [hcongr.2.1, hcongr.1]
    · rw [if_neg hg2, if_neg hg2]
      ext : 1
      · simp [hfrA.1, hfrB.1]
      · simp [hcongr.2.2]
      · simp [hcongr.1]
      · simp [hfrA.2.1]
      · simp [hfrA.2.2, hfrB.2.2]
      · simp [hcongr.2.1]
  · rw [if_neg hg, if_neg hg]

/-- Restart lemma: scanning `x ++ z` in one go emits the parts of `x`
followed (up to stripping) by what a fresh scan of `remainder(x) ++ z`
emits, and the final open parts agree up to orphaned whitespace. -/
theorem splitRun_restart (x z : List Char) :
    (splitRun (x ++ z)).done.map strip =
      (splitRun x).done.map strip ++
        (splitRun (curPart (splitRun x).cur ++ z)).done.map strip ∧
    relCur (splitRun (x ++ z)).cur (splitRun (curPart (splitRun x).cur ++ z)).cur := by
  have heta : splitRun x = ⟨(splitRun x).done, (splitRun x).cur⟩ := rfl
  rcases hc : (splitRun x).cur with _ | a
  · -- scan of `x` ended inside a separator run: the restart side begins fresh
    have h1 : splitRun (x ++ z) = z.foldl splitStep ⟨(splitRun x).done, none⟩ := by
      rw [splitRun_append]
      congr 1
      exact heta.trans (by rw [hc])
    have hframe := splitFold_frame z (splitRun x).done none
    have hbase : relst (⟨[], none⟩ : SplitSt) (⟨[], some []⟩ : SplitSt) := by
      refine ⟨rfl, ?_⟩
      show relCur none (some [])
      exact wsOnly_nil
    have hrel := relst_fold hbase z
    rw [h1, hframe]
    refine ⟨?_, ?_⟩
    · show List.map strip ((splitRun x).done ++ (List.foldl splitStep ⟨[], none⟩ z).done) =
        List.map strip (splitRun x).done ++
          List.map strip (splitRun (curPart none ++ z)).done
      have h2 : splitRun (curPart none ++ z) = List.foldl splitStep ⟨[], some []⟩ z := rfl
      rw [List.map_append, hrel.1, h2]
    · show relCur (List.foldl splitStep ⟨[], none⟩ z).cur (splitRun (curPart none ++ z)).cur
      have h2 : splitRun (curPart none ++ z) = List.foldl splitStep ⟨[], some []⟩ z := rfl
      rw [h2]
      exact hrel.2
  · -- scan of `x` has an open part `a.reverse`: reprocessing it is a no-op
    have hnb : noBndAcc a = true := ((splitRun_inv x).1 a hc).1
    have h1 : splitRun (x ++ z) = z.foldl splitStep ⟨(splitRun x).done, some a⟩ := by
      rw [splitRun_append]
      congr 1
      exact heta.trans (by rw [hc])
    have hframe := splitFold_frame z (splitRun x).done (some a)
    have h2 : splitRun (a.reverse ++ z) = z.foldl splitStep ⟨[], some a⟩ := by
      have hrp := splitFold_reprocess a.reverse z [] [] (by simpa using hnb)
      simpa [splitRun, initSplit] using hrp
    rw [h1, hframe]
    simp only [curPart]
    rw [h2]
    exact ⟨by simp, relCur_refl _⟩

/-- The input to a scan splits as the fully-consumed part `y` (whose scan
emitted exactly the parts seen so far and ended at a separator boundary)
followed by the still-open remainder. -/
theorem splitRun_decomp (x : List Char) :
    ∃ y, x = y ++ curPart (splitRun x).cur ∧
      (splitRun y).done = (splitRun x).done ∧
      curPart (splitRun y).cur = [] ∧
      (y = [] ∨ ∃ y' c, y = y' ++ [c] ∧ isWsChar c = true) ∧
      (y = [] ∨ ¬ WsOnly y) := by
  rcases hc : (splitRun x).cur with _ | a
  · refine ⟨x, by simp [curPart], rfl, by rw [hc]; rfl, ?_, ?_⟩
    · exact Or.inr ((splitRun_inv x).2.1 hc).2
    · refine Or.inr ?_
      intro hws
      rw [splitRun_wsOnly hws] at hc
      simp at hc
  · obtain ⟨_, y, hxy, hdisj, hyws⟩ := (splitRun_inv x).1 a hc
    rcases hdisj with ⟨hy0, hdone⟩ | hrun
    · subst hy0
      refine ⟨[], by simpa [curPart] using hxy, ?_, rfl, Or.inl rfl, Or.inl rfl⟩
      rw [hdone]
      rfl
    · refine ⟨y, by simpa [curPart] using hxy, by rw [hrun], by rw [hrun]; rfl, hyws, ?_⟩
      refine Or.inr ?_
      intro hws
      have hws2 := splitRun_wsOnly hws
      rw [hrun] at hws2
      have hcur := congrArg SplitSt.cur hws2
      simp at hcur

/-- A `<novoice>` occurrence in the extended stream cannot start inside the
consumed part `y`: it would either lie inside the tag-free `x` or cover the
whitespace character `y` ends with (tag characters are never whitespace). -/
theorem occurrence_past_consumed {x z y r : List Char} {j : Nat}
    (hxy : x = y ++ r)
    (hyws : y = [] ∨ ∃ y' c, y = y' ++ [c] ∧ isWsChar c = true)
    (hfx : findSubIdx novoiceTag x = none)
    (hocc : novoiceTag.isPrefixOf ((x ++ z).drop j) = true) :
    y.length ≤ j := by
  by_contra hlt
  push_neg at hlt
  rcases hyws with hy0 | ⟨y', cw, hy', hcw⟩
  · subst hy0; simp at hlt
  · have hylen : y.length = y'.length + 1 := by rw [hy']; simp
    have hyx : y.length ≤ x.length := by
      rw [hxy]; simp
    by_cases hcase : j + novoiceTag.length ≤ x.length
    · have hjx : j ≤ x.length := by omega
      rw [List.drop_append_of_le_length hjx] at hocc
      have hloc : novoiceTag <+: x.drop j := by
        refine prefix_of_append_of_le (List.isPrefixOf_iff_prefix.1 hocc) ?_
        rw [List.length_drop]
        omega
      have hnone := findSub_none_all novoiceTag_ne_nil hfx j
      exact absurd (List.isPrefixOf_iff_prefix.2 hloc) (bool_ne_true hnone)
    · have htlen : novoiceTag.length = 9 := by decide
      have hoff : y'.length - j < novoiceTag.length := by omega
      have hchar := prefixOf_drop_getElem hocc (y'.length - j) hoff
      have hjy' : j ≤ y'.length := by omega
      have hsum : j + (y'.length - j) = y'.length := by omega
      rw [hsum] at hchar
      have hx2 : x ++ z = y' ++ (cw :: (r ++ z)) := by
        rw [hxy, hy']; simp
      have hget : (x ++ z)[y'.length]? = some cw := by
        rw [hx2, List.getElem?_append_right (le_refl _)]
        simp
      rw [hget] at hchar
      rcases htag : novoiceTag[y'.length - j]? with _ | t
      · rw [htag] at hchar; cases hchar
      · rw [htag] at hchar
        have hcwt : cw = t := by exact Option.some.inj hchar
        have ht : t ∈ novoiceTag := List.getElem?_mem htag
        have := novoiceTag_not_ws t ht
        rw [← hcwt, hcw] at this
        cases this

/-- Merge, tag in the first delta: later deltas only extend the metadata
buffer. -/
theorem merge_early_tag (st : SegState) (d₁ d₂ : List Char) {i : Nat}
    (hn : st.inNovoice = false)
    (hfx : findSubIdx novoiceTag (st.buffer ++ d₁) = some i) :
    RSeg (feedDelta st (d₁ ++ d₂)) (feedDelta (feedDelta st d₁) d₂) := by
  have hile : i + novoiceTag.length ≤ (st.buffer ++ d₁).length :=
    findSub_le novoiceTag_ne_nil hfx
  have hi : i ≤ (st.buffer ++ d₁).length := by omega
  have hpre := findSub_some_prefixOf hfx
  have hfull : findSubIdx novoiceTag ((st.buffer ++ d₁) ++ d₂) = some i := by
    apply findSub_first
    · rw [List.drop_append_of_le_length hi]
      have hp := List.isPrefixOf_iff_prefix.1 hpre
      exact List.isPrefixOf_iff_prefix.2 (hp.trans (List.prefix_append _ _))
    · intro j hj
      have hjx : j ≤ (st.buffer ++ d₁).length := by omega
      rw [List.drop_append_of_le_length hjx]
      cases hq : novoiceTag.isPrefixOf ((st.buffer ++ d₁).drop j ++ d₂) with
      | false => rfl
      | true =>
        exfalso
        have hloc : novoiceTag <+: (st.buffer ++ d₁).drop j := by
          refine prefix_of_append_of_le (List.isPrefixOf_iff_prefix.1 hq) ?_
          rw [List.length_drop]
          omega
        have hmin := findSub_some_min hfx j hj
        exact absurd (List.isPrefixOf_iff_prefix.2 hloc) (bool_ne_true hmin)
  have hfull2 : findSubIdx novoiceTag (st.buffer ++ (d₁ ++ d₂)) = some i := by
    rw [← List.append_assoc]
    exact hfull
  rw [feed_tag hn (d₁ ++ d₂) hfull2, feed_tag hn d₁ hfx]
  have htb := tagBranch_shape st (st.buffer ++ d₁) i
  rw [feed_inNov htb.1 d₂, htb.2.1]
  have hL : tagBranch st (st.buffer ++ (d₁ ++ d₂)) i =
      { tagBranch st (st.buffer ++ d₁) i with
        novoiceBuffer := (st.buffer ++ d₁).drop i ++ d₂ } := by
    rw [← List.append_assoc]
    exact tagBranch_append_nov st (st.buffer ++ d₁) d₂ i hi
  rw [hL]
  exact RSeg_refl _

/-- A whitespace-only buffer splits into no sentences and itself. -/
theorem split_buffer_wsOnly {b : List Char} (h : strip b = []) :
    split_buffer b = ([], b) := by
  have hws : WsOnly b := strip_eq_nil_iff.1 h
  rw [split_buffer_char, splitRun_wsOnly hws]
  simp [curPart]

/-- The two normal-branch results of the one-shot and the restarted run are
related once the emitted sentences decompose and the remainders are
whitespace-related. -/
theorem RSeg_normal_pair (stA : SegState) (s₁ S₂ : List (List Char)) (rr R R₂ : List Char)
    (hrel : relBuf R R₂) :
    RSeg { emitSents stA (s₁ ++ S₂) with buffer := R }
      { emitSents ({ emitSents stA s₁ with buffer := rr } : SegState) S₂ with buffer := R₂ } := by
  rw [emitSents_append]
  have hcong := emitSents_congr (emitSents stA s₁)
    ({ emitSents stA s₁ with buffer := rr } : SegState) S₂ rfl rfl
  have hfrA := emitSents_frame (emitSents stA s₁) S₂
  have hfrB := emitSents_frame ({ emitSents stA s₁ with buffer := rr } : SegState) S₂
  refine ⟨?_, hcong.1, hcong.2, ?_, ?_⟩
  · show (emitSents _ S₂).inNovoice = (emitSents _ S₂).inNovoice
    rw [hfrA.2.2, hfrB.2.2]
  · show (emitSents _ S₂).novoiceBuffer = (emitSents _ S₂).novoiceBuffer
    rw [hfrA.2.1, hfrB.2.1]
  · exact hrel

/-- Merge, no tag anywhere: the one-shot scan emits the first delta's
sentences followed by what the restarted scan emits. -/
theorem merge_no_tag (st : SegState) (d₁ d₂ : List Char)
    (hn : st.inNovoice = false)
    (hfx : findSubIdx novoiceTag (st.buffer ++ d₁) = none)
    (hffull : findSubIdx novoiceTag (st.buffer ++ (d₁ ++ d₂)) = none) :
    RSeg (feedDelta st (d₁ ++ d₂)) (feedDelta (feedDelta st d₁) d₂) := by
  obtain ⟨y, hxy, hydone, hycur, hyws, hynws⟩ := splitRun_decomp (st.buffer ++ d₁)
  have hx2 : st.buffer ++ (d₁ ++ d₂) =
      y ++ (curPart (splitRun (st.buffer ++ d₁)).cur ++ d₂) := by
    calc st.buffer ++ (d₁ ++ d₂) = (st.buffer ++ d₁) ++ d₂ := (List.append_assoc _ _ _).symm
    _ = (y ++ curPart (splitRun (st.buffer ++ d₁)).cur) ++ d₂ := by rw [← hxy]
    _ = y ++ (curPart (splitRun (st.buffer ++ d₁)).cur ++ d₂) := List.append_assoc _ _ _
  have hcont : ∀ q, (splitRun (y ++ q)).done.map strip =
        (splitRun (st.buffer ++ d₁)).done.map strip ++ (splitRun q).done.map strip ∧
      relCur (splitRun (y ++ q)).cur (splitRun q).cur := by
    intro q
    have h := splitRun_restart y q
    rw [hycur, List.nil_append, hydone] at h
    exact h
  rw [feed_normal hn d₁ hfx]
  have hfr := emitSents_frame st (split_buffer (st.buffer ++ d₁)).1
  have hT₁nov : ({ emitSents st (split_buffer (st.buffer ++ d₁)).1 with
      buffer := (split_buffer (st.buffer ++ d₁)).2 } : SegState).inNovoice = false := by
    show (emitSents st (split_buffer (st.buffer ++ d₁)).1).inNovoice = false
    rw [hfr.2.2, hn]
  have hTbuf : ({ emitSents st (split_buffer (st.buffer ++ d₁)).1 with
      buffer := (split_buffer (st.buffer ++ d₁)).2 } : SegState).buffer
      = curPart (splitRun (st.buffer ++ d₁)).cur := by
    show (split_buffer (st.buffer ++ d₁)).2 = _
    rw [split_buffer_char]
  have hfr2 : findSubIdx novoiceTag (curPart (splitRun (st.buffer ++ d₁)).cur ++ d₂) = none := by
    rcases hq : findSubIdx novoiceTag (curPart (splitRun (st.buffer ++ d₁)).cur ++ d₂) with _ | k
    · rfl
    · exfalso
      have hp := findSub_some_prefixOf hq
      have hlift : novoiceTag.isPrefixOf ((st.buffer ++ (d₁ ++ d₂)).drop (y.length + k)) = true := by
        rw [hx2, List.drop_append]
        exact hp
      exact absurd hlift
        (bool_ne_true (findSub_none_all novoiceTag_ne_nil hffull (y.length + k)))
  have hnone2 : findSubIdx novoiceTag
      (({ emitSents st (split_buffer (st.buffer ++ d₁)).1 with
        buffer := (split_buffer (st.buffer ++ d₁)).2 } : SegState).buffer ++ d₂) = none := by
    rw [hTbuf]; exact hfr2
  rw [feed_normal hT₁nov d₂ hnone2, hTbuf, feed_normal hn (d₁ ++ d₂) hffull, hx2]
  have hS : (split_buffer (y ++ (curPart (splitRun (st.buffer ++ d₁)).cur ++ d₂))).1
      = (split_buffer (st.buffer ++ d₁)).1 ++
        (split_buffer (curPart (splitRun (st.buffer ++ d₁)).cur ++ d₂)).1 := by
    simp only [split_buffer_char]
    rw [(hcont (curPart (splitRun (st.buffer ++ d₁)).cur ++ d₂)).1, List.filter_append]
  have hR : relBuf (split_buffer (y ++ (curPart (splitRun (st.buffer ++ d₁)).cur ++ d₂))).2
      (split_buffer (curPart (splitRun (st.buffer ++ d₁)).cur ++ d₂)).2 := by
    simp only [split_buffer_char]
    exact relCur_relBuf (hcont (curPart (splitRun (st.buffer ++ d₁)).cur ++ d₂)).2
  rw [hS]
  exact RSeg_normal_pair st _ _ _ _ _ hR

/-- The two tag-branch results of the one-shot and the restarted run are
related once the pre-tag sentences decompose and the pre-tag remainders are
whitespace-related. -/
theorem RSeg_tag_pair (stA : SegState) (y q : List Char) (s₁ : List (List Char))
    (rr : List Char) (k : Nat)
    (hS : (split_buffer (y ++ q.take k)).1 = s₁ ++ (split_buffer (q.take k)).1)
    (hrem : strip (split_buffer (y ++ q.take k)).2 = strip (split_buffer (q.take k)).2)
    (hyNW : y = [] ∨ ¬ WsOnly y) :
    RSeg (tagBranch stA (y ++ q) (y.length + k))
      (tagBranch ({ emitSents stA s₁ with buffer := rr } : SegState) q k) := by
  simp only [tagBranch]
  rw [List.take_append, List.drop_append]
  have hcong0 := emitSents_congr
    ({ stA with buffer := [], novoiceBuffer := q.drop k, inNovoice := true } : SegState)
    stA s₁ rfl rfl
  have hfrA0 := emitSents_frame
    ({ stA with buffer := [], novoiceBuffer := q.drop k, inNovoice := true } : SegState) s₁
  by_cases hg2 : strip (q.take k) ≠ []
  · have hg1 : strip (y ++ q.take k) ≠ [] := by
      intro h0
      exact hg2 (strip_eq_nil_iff.2 (wsOnly_of_append_right (strip_eq_nil_iff.1 h0)))
    rw [if_pos hg1, if_pos hg2, hS, hrem, emitSents_append]
    have hcong := emitSents_congr
      (emitSents ({ stA with buffer := [], novoiceBuffer := q.drop k, inNovoice := true } : SegState) s₁)
      ({ ({ emitSents stA s₁ with buffer := rr } : SegState) with buffer := [], novoiceBuffer := q.drop k, inNovoice := true } : SegState)
      (split_buffer (q.take k)).1 hcong0.1 hcong0.2
    have hfrA := emitSents_frame
      (emitSents ({ stA with buffer := [], novoiceBuffer := q.drop k, inNovoice := true } : SegState) s₁)
      (split_buffer (q.take k)).1
    have hfrB := emitSents_frame
      ({ ({ emitSents stA s₁ with buffer := rr } : SegState) with buffer := [], novoiceBuffer := q.drop k, inNovoice := true } : SegState)
      (split_buffer (q.take k)).1
    by_cases hg3 : strip (split_buffer (q.take k)).2 ≠ []
    · rw [if_pos hg3, if_pos hg3]
      refine ⟨?_, ?_, ?_, ?_, ?_⟩
      · show (emitSents _ _).inNovoice = (emitSents _ _).inNovoice
        rw [hfrA.2.2, hfrB.2.2, hfrA0.2.2]
      · show (emitSents _ _).sentenceIndex + 1 = (emitSents _ _).sentenceIndex + 1
        rw [hcong.1]
      · show (emitSents _ _).events ++ _ = (emitSents _ _).events ++ _
        rw [hcong.1, hcong.2]
      · show (emitSents _ _).novoiceBuffer = (emitSents _ _).novoiceBuffer
        rw [hfrA.2.1, hfrB.2.1, hfrA0.2.1]
      · show relBuf (emitSents _ _).buffer (emitSents _ _).buffer
        rw [hfrA.1, hfrB.1, hfrA0.1]
        exact relBuf_refl _
    · rw [if_neg hg3, if_neg hg3]
      refine ⟨?_, hcong.1, hcong.2, ?_, ?_⟩
      · show (emitSents _ _).inNovoice = (emitSents _ _).inNovoice
        rw [hfrA.2.2, hfrB.2.2, hfrA0.2.2]
      · show (emitSents _ _).novoiceBuffer = (emitSents _ _).novoiceBuffer
        rw [hfrA.2.1, hfrB.2.1, hfrA0.2.1]
      · show relBuf (emitSents _ _).buffer (emitSents _ _).buffer
        rw [hfrA.1, hfrB.1, hfrA0.1]
        exact relBuf_refl _
  · rw [if_neg hg2]
    push_neg at hg2
    have hsb0 := split_buffer_wsOnly hg2
    by_cases hg1 : strip (y ++ q.take k) ≠ []
    · rw [if_pos hg1]
      have hS2 : (split_buffer (y ++ q.take k)).1 = s₁ := by
        rw [hS, hsb0]
        simp
      have hrem2 : strip (split_buffer (y ++ q.take k)).2 = [] := by
        rw [hrem, hsb0]
        simpa using hg2
      rw [hS2, if_neg (by simp [hrem2])]
      refine ⟨?_, hcong0.1, hcong0.2, ?_, ?_⟩
      · show (emitSents _ _).inNovoice = _
        rw [hfrA0.2.2]
      · show (emitSents _ _).novoiceBuffer = _
        rw [hfrA0.2.1]
      · show relBuf (emitSents _ _).buffer _
        rw [hfrA0.1]
        exact relBuf_refl _
    · rw [if_neg hg1]
      push_neg at hg1
      have hwsy : WsOnly y := wsOnly_of_append_left (strip_eq_nil_iff.1 hg1)
      have hy0 : y = [] := by
        rcases hyNW with h | h
        · exact h
        · exact absurd hwsy h
      have hs10 : s₁ = [] := by
        rw [hy0, List.nil_append] at hS
        have hl := congrArg List.length hS
        simp at hl
        exact hl
      rw [hs10]
      exact ⟨rfl, rfl, rfl, rfl, relBuf_refl _⟩

/-- Merge, tag arriving with the second delta (or spanning the cut). -/
theorem merge_late_tag (st : SegState) (d₁ d₂ : List Char) {i : Nat}
    (hn : st.inNovoice = false)
    (hfx : findSubIdx novoiceTag (st.buffer ++ d₁) = none)
    (hffull : findSubIdx novoiceTag (st.buffer ++ (d₁ ++ d₂)) = some i) :
    RSeg (feedDelta st (d₁ ++ d₂)) (feedDelta (feedDelta st d₁) d₂) := by
  obtain ⟨y, hxy, hydone, hycur, hyws, hynws⟩ := splitRun_decomp (st.buffer ++ d₁)
  have hx2 : st.buffer ++ (d₁ ++ d₂) =
      y ++ (curPart (splitRun (st.buffer ++ d₁)).cur ++ d₂) := by
    calc st.buffer ++ (d₁ ++ d₂) = (st.buffer ++ d₁) ++ d₂ := (List.append_assoc _ _ _).symm
    _ = (y ++ curPart (splitRun (st.buffer ++ d₁)).cur) ++ d₂ := by rw [← hxy]
    _ = y ++ (curPart (splitRun (st.buffer ++ d₁)).cur ++ d₂) := List.append_assoc _ _ _
  have hpre := findSub_some_prefixOf hffull
  have hocc : novoiceTag.isPrefixOf (((st.buffer ++ d₁) ++ d₂).drop i) = true := by
    rw [List.append_assoc]
    exact hpre
  have hyi : y.length ≤ i := occurrence_past_consumed hxy hyws hfx hocc
  obtain ⟨k, hik⟩ : ∃ k, i = y.length + k := ⟨i - y.length, by omega⟩
  have hfr2 : findSubIdx novoiceTag (curPart (splitRun (st.buffer ++ d₁)).cur ++ d₂) = some k := by
    apply findSub_first
    · have h1 : (st.buffer ++ (d₁ ++ d₂)).drop i =
          (curPart (splitRun (st.buffer ++ d₁)).cur ++ d₂).drop k := by
        rw [hx2, hik, List.drop_append]
      rw [← h1]
      exact findSub_some_prefixOf hffull
    · intro j hj
      cases hq : novoiceTag.isPrefixOf ((curPart (splitRun (st.buffer ++ d₁)).cur ++ d₂).drop j) with
      | false => rfl
      | true =>
        exfalso
        have hlift : novoiceTag.isPrefixOf ((st.buffer ++ (d₁ ++ d₂)).drop (y.length + j)) = true := by
          rw [hx2, List.drop_append]
          exact hq
        have hmin := findSub_some_min hffull (y.length + j) (by omega)
        exact absurd hlift (bool_ne_true hmin)
  have hcont : ∀ q2, (splitRun (y ++ q2)).done.map strip =
        (splitRun (st.buffer ++ d₁)).done.map strip ++ (splitRun q2).done.map strip ∧
      relCur (splitRun (y ++ q2)).cur (splitRun q2).cur := by
    intro q2
    have h := splitRun_restart y q2
    rw [hycur, List.nil_append, hydone] at h
    exact h
  rw [feed_normal hn d₁ hfx]
  have hfr := emitSents_frame st (split_buffer (st.buffer ++ d₁)).1
  have hT₁nov : ({ emitSents st (split_buffer (st.buffer ++ d₁)).1 with
      buffer := (split_buffer (st.buffer ++ d₁)).2 } : SegState).inNovoice = false := by
    show (emitSents st (split_buffer (st.buffer ++ d₁)).1).inNovoice = false
    rw [hfr.2.2, hn]
  have hTbuf : ({ emitSents st (split_buffer (st.buffer ++ d₁)).1 with
      buffer := (split_buffer (st.buffer ++ d₁)).2 } : SegState).buffer
      = curPart (splitRun (st.buffer ++ d₁)).cur := by
    show (split_buffer (st.buffer ++ d₁)).2 = _
    rw [split_buffer_char]
  have hsome2 : findSubIdx novoiceTag
      (({ emitSents st (split_buffer (st.buffer ++ d₁)).1 with
        buffer := (split_buffer (st.buffer ++ d₁)).2 } : SegState).buffer ++ d₂) = some k := by
    rw [hTbuf]; exact hfr2
  rw [feed_tag hT₁nov d₂ hsome2, hTbuf, feed_tag hn (d₁ ++ d₂) hffull, hx2, hik]
  have hS : (split_buffer (y ++ (curPart (splitRun (st.buffer ++ d₁)).cur ++ d₂).take k)).1 =
      (split_buffer (st.buffer ++ d₁)).1 ++
        (split_buffer ((curPart (splitRun (st.buffer ++ d₁)).cur ++ d₂).take k)).1 := by
    simp only [split_buffer_char]
    rw [(hcont ((curPart (splitRun (st.buffer ++ d₁)).cur ++ d₂).take k)).1, List.filter_append]
  have hrem : strip (split_buffer (y ++ (curPart (splitRun (st.buffer ++ d₁)).cur ++ d₂).take k)).2 =
      strip (split_buffer ((curPart (splitRun (st.buffer ++ d₁)).cur ++ d₂).take k)).2 := by
    simp only [split_buffer_char]
    exact relCur_strip_curPart (hcont ((curPart (splitRun (st.buffer ++ d₁)).cur ++ d₂).take k)).2
  exact RSeg_tag_pair st y (curPart (splitRun (st.buffer ++ d₁)).cur ++ d₂)
    (split_buffer (st.buffer ++ d₁)).1 (split_buffer (st.buffer ++ d₁)).2 k hS hrem hynws

/-- Merge lemma: feeding `d₁ ++ d₂` at once is (up to `RSeg`) the same as
feeding `d₁` then `d₂`. -/
theorem RSeg_merge (st : SegState) (d₁ d₂ : List Char) :
    RSeg (feedDelta st (d₁ ++ d₂)) (feedDelta (feedDelta st d₁) d₂) := by
  cases hn : st.inNovoice with
  | true =>
    rw [feed_inNov hn (d₁ ++ d₂), feed_inNov hn d₁]
    have hn2 : ({ st with novoiceBuffer := st.novoiceBuffer ++ d₁ } : SegState).inNovoice = true := hn
    rw [feed_inNov hn2 d₂]
    refine ⟨rfl, rfl, rfl, ?_, relBuf_refl _⟩
    show st.novoiceBuffer ++ (d₁ ++ d₂) = st.novoiceBuffer ++ d₁ ++ d₂
    rw [List.append_assoc]
  | false =>
    rcases hfx : findSubIdx novoiceTag (st.buffer ++ d₁) with _ | i
    · rcases hffull : findSubIdx novoiceTag (st.buffer ++ (d₁ ++ d₂)) with _ | i
      · exact merge_no_tag st d₁ d₂ hn hfx hffull
      · exact merge_late_tag st d₁ d₂ hn hfx hffull
    · exact merge_early_tag st d₁ d₂ hn hfx

theorem RSeg_fold {st₁ st₂ : SegState} (h : RSeg st₁ st₂) (ds : List (List Char)) :
    RSeg (ds.foldl feedDelta st₁) (ds.foldl feedDelta st₂) := by
  induction ds generalizing st₁ st₂ with
  | nil => exact h
  | cons d ds ih => exact ih (RSeg_feed h d)

/-- Feeding everything at once relates to feeding delta by delta. -/
theorem RSeg_flatten (st : SegState) (d : List Char) (ds : List (List Char)) :
    RSeg (feedDelta st (d ++ ds.flatten)) (ds.foldl feedDelta (feedDelta st d)) := by
  induction ds generalizing st d with
  | nil =>
    simpa using RSeg_refl (feedDelta st d)
  | cons d2 ds ih =>
    have hmerge := RSeg_fold (RSeg_merge st d d2) ds
    have hih := ih st (d ++ d2)
    have hchain := RSeg_trans hih hmerge
    show RSeg (feedDelta st (d ++ (d2 ++ ds.flatten))) (ds.foldl feedDelta (feedDelta (feedDelta st d) d2))
    rw [← List.append_assoc]
    exact hchain

/-- Flushing related states yields the same events and final index. -/
theorem RSeg_finish {st₁ st₂ : SegState} (h : RSeg st₁ st₂) :
    (finishStream st₁).events = (finishStream st₂).events ∧
    (finishStream st₁).sentenceIndex = (finishStream st₂).sentenceIndex := by
  obtain ⟨hnov, hidx, hev, _, hbuf⟩ := h
  have hstrip : strip st₁.buffer = strip st₂.buffer := relBuf_strip hbuf
  unfold finishStream
  by_cases hg : strip st₁.buffer ≠ [] ∧ st₁.inNovoice = false
  · rw [if_pos hg, if_pos (show strip st₂.buffer ≠ [] ∧ st₂.inNovoice = false by
      rw [← hstrip, ← hnov]; exact hg)]
    exact ⟨by simp [hev, hstrip, hidx], by simp [hidx]⟩
  · rw [if_neg hg, if_neg (show ¬(strip st₂.buffer ≠ [] ∧ st₂.inNovoice = false) by
      rw [← hstrip, ← hnov]; exact hg)]
    exact ⟨hev, hidx⟩

/-- Delta-boundary independence of the emitted units: any segmentation of
the stream into deltas produces exactly the sentence-unit events (texts and
indices) of the single-delta run, and the same final unit count. -/
theorem segmenter_delta_boundary (deltas : List (List Char)) :
    (runSegmenter deltas).events = (runSegmenter [deltas.flatten]).events ∧
    (runSegmenter deltas).sentenceIndex = (runSegmenter [deltas.flatten]).sentenceIndex := by
  cases deltas with
  | nil => exact ⟨by decide, by decide⟩
  | cons d ds =>
    have h2 := RSeg_finish (RSeg_flatten initSegState d ds)
    exact ⟨h2.1.symm, h2.2.symm⟩

/-! ### Sequence-index bookkeeping (for C9) -/

/-- The events emitted so far carry exactly the indices `0, 1, ..., n-1`. -/
def EvInv (st : SegState) : Prop :=
  st.events.map SentEvent.index = List.range st.sentenceIndex

theorem evInv_push {ev : List SentEvent} {n : Nat}
    (h : ev.map SentEvent.index = List.range n) (t : List Char) :
    (ev ++ [(⟨t, n⟩ : SentEvent)]).map SentEvent.index = List.range (n + 1) := by
  rw [List.map_append, h, List.range_succ]
  rfl

theorem evInv_emitOne {st : SegState} (h : EvInv st) (s : List Char) :
    EvInv (emitOne st s) := by
  unfold emitOne
  by_cases hg : strip s ≠ []
  · rw [if_pos hg]
    exact evInv_push h (strip s)
  · rw [if_neg hg]
    exact h

theorem evInv_emitSents {st : SegState} (h : EvInv st) (l : List (List Char)) :
    EvInv (emitSents st l) := by
  induction l generalizing st with
  | nil => exact h
  | cons s l ih => exact ih (evInv_emitOne h s)

theorem evInv_tagBranch {st : SegState} (h : EvInv st) (buf : List Char) (idx : Nat) :
    EvInv (tagBranch st buf idx) := by
  simp only [tagBranch]
  have hbase : EvInv ({ st with buffer := [], novoiceBuffer := buf.drop idx, inNovoice := true } : SegState) := h
  by_cases hg : strip (buf.take idx) ≠ []
  · rw [if_pos hg]
    have h1 := evInv_emitSents hbase (split_buffer (buf.take idx)).1
    by_cases hg2 : strip (split_buffer (buf.take idx)).2 ≠ []
    · rw [if_pos hg2]
      exact evInv_push h1 _
    · rw [if_neg hg2]
      exact h1
  · rw [if_neg hg]
    exact hbase

theorem evInv_feedDelta {st : SegState} (h : EvInv st) (d : List Char) :
    EvInv (feedDelta st d) := by
  cases hn : st.inNovoice with
  | true => rw [feed_inNov hn]; exact h
  | false =>
    rcases hf : findSubIdx novoiceTag (st.buffer ++ d) with _ | i
    · rw [feed_normal hn d hf]
      exact evInv_emitSents h (split_buffer (st.buffer ++ d)).1
    · rw [feed_tag hn d hf]
      exact evInv_tagBranch h (st.buffer ++ d) i

theorem evInv_finish {st : SegState} (h : EvInv st) : EvInv (finishStream st) := by
  unfold finishStream
  by_cases hg : strip st.buffer ≠ [] ∧ st.inNovoice = false
  · rw [if_pos hg]
    exact evInv_push h _
  · rw [if_neg hg]
    exact h

theorem evInv_run (deltas : List (List Char)) : EvInv (runSegmenter deltas) := by
  unfold runSegmenter
  refine evInv_finish ?_
  induction deltas using List.reverseRecOn with
  | nil => rfl
  | append_singleton ds d ih =>
    rw [List.foldl_append]
    exact evInv_feedDelta ih d

/-! ### Metadata mode is absorbing (for C5) -/

theorem inNovoice_foldl {st : SegState} (h : st.inNovoice = true)
    (deltas : List (List Char)) :
    deltas.foldl feedDelta st =
      { st with novoiceBuffer := st.novoiceBuffer ++ deltas.flatten } := by
  induction deltas generalizing st with
  | nil =>
    show st = { st with novoiceBuffer := st.novoiceBuffer ++ [] }
    simp
  | cons d ds ih =>
    show ds.foldl feedDelta (feedDelta st d) = _
    rw [feed_inNov h d]
    rw [ih (show ({ st with novoiceBuffer := st.novoiceBuffer ++ d } : SegState).inNovoice = true from h)]
    simp [List.append_assoc]

/-! ### Claim C3 -/

/-- C3 counterexample: the final concatenated full text is NOT independent of
the delta boundaries.  Fed as one delta, the stream "Hi.  Bye" has its whole
two-space separator run consumed by the split regex, and the full text
records the emitted "Hi." plus a single rejoining space: "Hi. Bye".  Fed as
the two deltas "Hi. " and " Bye", the segmenter flushes "Hi." at the cut
(recording "Hi. "), re-buffers the remainder " Bye" with its orphan leading
whitespace, and the final flush appends that buffer verbatim, recording
"Hi.  Bye".  The emitted sentence units are identical in both runs. -/
theorem c3_full_text_counterexample :
    ("Hi. ".data ++ " Bye".data : List Char) = "Hi.  Bye".data ∧
    cleanText (runSegmenter ["Hi. ".data, " Bye".data]) ≠
      cleanText (runSegmenter ["Hi.  Bye".data]) ∧
    (runSegmenter ["Hi. ".data, " Bye".data]).events =
      (runSegmenter ["Hi.  Bye".data]).events := by
  refine ⟨by decide, by decide, by decide⟩

/-- C3 (amended): delta-boundary independence holds for the emitted sentence
units and their count — for every partition of the character stream into
deltas, the segmenter emits exactly the same sentence events (same texts,
same sequence indices) and ends with the same sentence count as when the
whole stream is fed as one single delta.  The final concatenated full text,
however, is not boundary-independent (see the counterexample): separator
whitespace that a delta cut splits after a flushed sentence is retained in
the split feed's recorded full text (the remainder's orphan leading
whitespace is re-buffered and flushed verbatim), while a single-delta feed
consumes the whole separator run. -/
theorem c3_delta_boundary_units (deltas : List (List Char)) :
    (runSegmenter deltas).events = (runSegmenter [deltas.flatten]).events ∧
    (runSegmenter deltas).sentenceIndex =
      (runSegmenter [deltas.flatten]).sentenceIndex :=
  segmenter_delta_boundary deltas

/-! ### Claim C9 -/

/-- C9: within one generation run the emitted sentence units carry
sequenceIndex values 0, 1, 2, … gap-free and strictly increasing (their
list of indices is exactly List.range of the final count), and a
whitespace-only (or empty) final flush yields no unit and consumes no
index (finishStream leaves the state unchanged). -/
theorem c9_indices_gap_free (deltas : List (List Char)) :
    (runSegmenter deltas).events.map SentEvent.index =
      List.range (runSegmenter deltas).sentenceIndex ∧
    (∀ st : SegState, strip st.buffer = [] → finishStream st = st) := by
  refine ⟨evInv_run deltas, ?_⟩
  intro st h
  unfold finishStream
  rw [if_neg (by simp [h])]

/-- Witness for C9 at a concrete run and a concrete whitespace-only buffer. -/
theorem c9_indices_gap_free_witness :
    (runSegmenter ["One. Two!".data]).events.map SentEvent.index =
      List.range (runSegmenter ["One. Two!".data]).sentenceIndex ∧
    strip "  ".data = [] ∧
    finishStream ⟨"  ".data, "x.  ".data, 1, [], false, [⟨"x.".data, 0⟩]⟩ =
      ⟨"  ".data, "x.  ".data, 1, [], false, [⟨"x.".data, 0⟩]⟩ :=
  ⟨(c9_indices_gap_free ["One. Two!".data]).1, by decide,
   (c9_indices_gap_free ["One. Two!".data]).2
     ⟨"  ".data, "x.  ".data, 1, [], false, [⟨"x.".data, 0⟩]⟩ (by decide)⟩

/-! ### Claim C5 -/

/-- C5: once the metadata open-delimiter has been detected (the segmenter is
in novoice/metadata mode), every subsequent delta is appended verbatim to the
metadata buffer only: no further sentence unit is ever emitted, the state
never returns to normal mode for this stream instance, the sentence buffer
and recorded full text are untouched, and the final flush emits nothing —
so none of the metadata text is ever handed to synthesis. -/
theorem c5_metadata_absorbing (st : SegState) (deltas : List (List Char))
    (h : st.inNovoice = true) :
    (deltas.foldl feedDelta st).inNovoice = true ∧
    (deltas.foldl feedDelta st).events = st.events ∧
    (deltas.foldl feedDelta st).buffer = st.buffer ∧
    (deltas.foldl feedDelta st).fullText = st.fullText ∧
    (deltas.foldl feedDelta st).novoiceBuffer =
      st.novoiceBuffer ++ deltas.flatten ∧
    finishStream (deltas.foldl feedDelta st) = deltas.foldl feedDelta st := by
  rw [inNovoice_foldl h]
  refine ⟨h, rfl, rfl, rfl, rfl, ?_⟩
  unfold finishStream
  rw [if_neg (by simp [h])]

/-- Witness for C5 at a concrete in-metadata state and concrete deltas. -/
theorem c5_metadata_absorbing_witness :
    ((["b".data, ". c!".data].foldl feedDelta
        ⟨[], "Hi. ".data, 1, "a".data, true, [⟨"Hi.".data, 0⟩]⟩).inNovoice = true ∧
     (["b".data, ". c!".data].foldl feedDelta
        ⟨[], "Hi. ".data, 1, "a".data, true, [⟨"Hi.".data, 0⟩]⟩).events =
        [⟨"Hi.".data, 0⟩] ∧
     (["b".data, ". c!".data].foldl feedDelta
        ⟨[], "Hi. ".data, 1, "a".data, true, [⟨"Hi.".data, 0⟩]⟩).buffer = [] ∧
     (["b".data, ". c!".data].foldl feedDelta
        ⟨[], "Hi. ".data, 1, "a".data, true, [⟨"Hi.".data, 0⟩]⟩).fullText =
        "Hi. ".data ∧
     (["b".data, ". c!".data].foldl feedDelta
        ⟨[], "Hi. ".data, 1, "a".data, true, [⟨"Hi.".data, 0⟩]⟩).novoiceBuffer =
        "a".data ++ (["b".data, ". c!".data] : List (List Char)).flatten ∧
     finishStream (["b".data, ". c!".data].foldl feedDelta
        ⟨[], "Hi. ".data, 1, "a".data, true, [⟨"Hi.".data, 0⟩]⟩) =
       ["b".data, ". c!".data].foldl feedDelta
        ⟨[], "Hi. ".data, 1, "a".data, true, [⟨"Hi.".data, 0⟩]⟩) :=
  c5_metadata_absorbing ⟨[], "Hi. ".data, 1, "a".data, true, [⟨"Hi.".data, 0⟩]⟩
    ["b".data, ". c!".data] (by decide)

/-! ### Association-list lemmas -/

theorem lookupA_updateA_self {κ β : Type} [DecidableEq κ]
    (m : List (κ × β)) (k : κ) (v : β) :
    lookupA (updateA m k v) k = some v := by
  induction m with
  | nil => simp [updateA, lookupA]
  | cons p rest ih =>
    obtain ⟨k0, v0⟩ := p
    by_cases h : k0 = k
    · subst h; simp [updateA, lookupA]
    · simp [updateA, lookupA, h, ih]

theorem lookupA_updateA_ne {κ β : Type} [DecidableEq κ]
    (m : List (κ × β)) (k k' : κ) (v : β) (h : k' ≠ k) :
    lookupA (updateA m k v) k' = lookupA m k' := by
  induction m with
  | nil => simp [updateA, lookupA, Ne.symm h]
  | cons p rest ih =>
    obtain ⟨k0, v0⟩ := p
    by_cases hk : k0 = k
    · subst hk
      simp [updateA, lookupA, Ne.symm h]
    · simp [updateA, lookupA, hk, ih]

theorem lookupA_eq_none {κ β : Type} [DecidableEq κ]
    (m : List (κ × β)) (k : κ) (h : k ∉ m.map Prod.fst) :
    lookupA m k = none := by
  induction m with
  | nil => rfl
  | cons p rest ih =>
    obtain ⟨k0, v0⟩ := p
    simp only [List.map_cons, List.mem_cons] at h
    push_neg at h
    have hne : k0 ≠ k := fun e => h.1 e.symm
    simp [lookupA, hne, ih h.2]

theorem lookupA_eraseA_self {κ β : Type} [DecidableEq κ]
    (m : List (κ × β)) (k : κ) (h : (m.map Prod.fst).Nodup) :
    lookupA (eraseA m k) k = none := by
  induction m with
  | nil => rfl
  | cons p rest ih =>
    obtain ⟨k0, v0⟩ := p
    simp only [List.map_cons, List.nodup_cons] at h
    by_cases hk : k0 = k
    · subst hk
      simpa [eraseA] using lookupA_eq_none rest k0 h.1
    · simp [eraseA, hk, lookupA, ih h.2]

theorem lookupA_map_record (l : List (List Char × ConvRecord)) (k : List Char) :
    lookupA (l.map (fun p => (p.1, ⟨p.2.npc_id, p.2.messages⟩))) k =
      (lookupA l k).map (fun r => (⟨r.npc_id, r.messages⟩ : ConvRecord)) := by
  induction l with
  | nil => rfl
  | cons p rest ih =>
    obtain ⟨k0, v0⟩ := p
    by_cases h : k0 = k
    · subst h; simp [lookupA]
    · simp [lookupA, h, ih]

theorem lookupA_get_all (st : StoreState) (k : List Char) :
    lookupA (get_all_conversations st) k =
      (lookupA st.conversations k).map (fun r => (⟨r.npc_id, r.messages⟩ : ConvRecord)) :=
  lookupA_map_record st.conversations k

theorem finalize_of_lookup_none (st : StoreState) (sid : List Char)
    (h : lookupA st.activeSessions sid = none) :
    finalize_session st sid = (([], none), st) := by
  unfold finalize_session
  rw [h]

/-! ### Claim C10 -/

/-- C10: for an entity present in the store, `clear_conversation` returns
`True` and resets the entity's message list to `[]`, but keeps the record:
the entity still appears in `get_all_conversations` with zero messages, a
second clear on the same entity still returns `True`, and every other
entity's record is untouched (shown here for an arbitrary other key). -/
theorem c10_clear_keeps_record (st : StoreState) (npc : List Char)
    (conv : ConvRecord) (h : lookupA st.conversations npc = some conv) :
    (clear_conversation st npc).1 = true ∧
    lookupA (get_all_conversations (clear_conversation st npc).2) npc =
      some ⟨conv.npc_id, []⟩ ∧
    (clear_conversation (clear_conversation st npc).2 npc).1 = true ∧
    ∀ other, other ≠ npc →
      lookupA (clear_conversation st npc).2.conversations other =
        lookupA st.conversations other := by
  have h1 : clear_conversation st npc =
      (true, { st with conversations := updateA st.conversations npc ⟨conv.npc_id, []⟩ }) := by
    unfold clear_conversation
    rw [h]
  refine ⟨by rw [h1], ?_, ?_, ?_⟩
  · rw [h1, lookupA_get_all]
    simp [lookupA_updateA_self]
  · rw [h1]
    unfold clear_conversation
    rw [lookupA_updateA_self]
  · intro other hne
    rw [h1]
    exact lookupA_updateA_ne st.conversations npc other _ hne

/-- Witness for C10 on a concrete two-entity store. -/
theorem c10_clear_keeps_record_witness :
    lookupA (StoreState.mk
        [("a".data, ⟨"a".data, [⟨"user".data, "hi".data⟩]⟩), ("b".data, ⟨"b".data, []⟩)]
        []).conversations "a".data = some ⟨"a".data, [⟨"user".data, "hi".data⟩]⟩ ∧
    (clear_conversation (StoreState.mk
        [("a".data, ⟨"a".data, [⟨"user".data, "hi".data⟩]⟩), ("b".data, ⟨"b".data, []⟩)]
        []) "a".data).1 = true ∧
    lookupA (get_all_conversations (clear_conversation (StoreState.mk
        [("a".data, ⟨"a".data, [⟨"user".data, "hi".data⟩]⟩), ("b".data, ⟨"b".data, []⟩)]
        []) "a".data).2) "a".data = some ⟨"a".data, []⟩ ∧
    (clear_conversation (clear_conversation (StoreState.mk
        [("a".data, ⟨"a".data, [⟨"user".data, "hi".data⟩]⟩), ("b".data, ⟨"b".data, []⟩)]
        []) "a".data).2 "a".data).1 = true ∧
    lookupA (clear_conversation (StoreState.mk
        [("a".data, ⟨"a".data, [⟨"user".data, "hi".data⟩]⟩), ("b".data, ⟨"b".data, []⟩)]
        []) "a".data).2.conversations "b".data =
      lookupA (StoreState.mk
        [("a".data, ⟨"a".data, [⟨"user".data, "hi".data⟩]⟩), ("b".data, ⟨"b".data, []⟩)]
        []).conversations "b".data := by
  have hmem : lookupA (StoreState.mk
      [("a".data, ⟨"a".data, [⟨"user".data, "hi".data⟩]⟩), ("b".data, ⟨"b".data, []⟩)]
      []).conversations "a".data = some ⟨"a".data, [⟨"user".data, "hi".data⟩]⟩ := by decide
  have main := c10_clear_keeps_record _ "a".data _ hmem
  exact ⟨hmem, main.1, main.2.1, main.2.2.1, main.2.2.2 "b".data (by decide)⟩

/-! ### Claim C7 -/

/-- C7: `finalize_session` is consume-once — on a store whose session keys
are pairwise distinct (every reachable store; Python dict keys are unique),
a second finalize of the same session id returns empty text and no latency,
because the first call popped the session. -/
theorem c7_finalize_consume_once (st : StoreState) (sid : List Char)
    (h : (st.activeSessions.map Prod.fst).Nodup) :
    (finalize_session (finalize_session st sid).2 sid).1 = ([], none) := by
  have key : lookupA (finalize_session st sid).2.activeSessions sid = none := by
    unfold finalize_session
    cases hl : lookupA st.activeSessions sid with
    | none => exact hl
    | some chunks =>
      by_cases hc : chunks = []
      · simp only [hc, if_pos rfl]
        exact lookupA_eraseA_self st.activeSessions sid h
      · simp only [if_neg hc]
        exact lookupA_eraseA_self st.activeSessions sid h
  rw [finalize_of_lookup_none _ _ key]

/-- Witness for C7 on a concrete one-session store. -/
theorem c7_finalize_consume_once_witness :
    ((StoreState.mk [] [("s".data, [((0 : Int), ⟨"hi".data, 5⟩)])]).activeSessions.map
        Prod.fst).Nodup ∧
    (finalize_session (finalize_session
        (StoreState.mk [] [("s".data, [((0 : Int), ⟨"hi".data, 5⟩)])]) "s".data).2
      "s".data).1 = ([], none) :=
  ⟨by decide, c7_finalize_consume_once _ "s".data (by decide)⟩

/-! ### Claim C6 -/

theorem mem_updateA {κ β : Type} [DecidableEq κ] (m : List (κ × β)) (k : κ)
    (v : β) (kv : κ × β) : kv ∈ updateA m k v → kv ∈ m ∨ kv = (k, v) := by
  induction m with
  | nil =>
    intro h
    right
    simpa [updateA] using h
  | cons p rest ih =>
    obtain ⟨k0, v0⟩ := p
    intro h
    by_cases hk : k0 = k
    · subst hk
      simp [updateA] at h
      rcases h with h | h
      · exact .inr h
      · exact .inl (List.mem_cons_of_mem _ h)
    · simp [updateA, hk] at h
      rcases h with h | h
      · exact .inl (by simp [h])
      · rcases ih h with h2 | h2
        · exact .inl (List.mem_cons_of_mem _ h2)
        · exact .inr h2

theorem mem_foldl_parseField (parts : List (List Char)) :
    ∀ (m : List (List Char × NVal)) (k : List Char) (v : NVal),
      (k, v) ∈ parts.foldl parseField m →
      (k, v) ∈ m ∨
      ∃ part ∈ parts, ∃ kr vr, splitOnce ':' (strip part) = some (kr, vr) ∧
        k = toLowerStr (strip kr) ∧
        v = (if k = "price".data then priceValue (strip vr)
             else NVal.strV (strip vr)) := by
  induction parts with
  | nil => intro m k v h; exact .inl h
  | cons part rest ih =>
    intro m k v h
    simp only [List.foldl_cons] at h
    rcases ih _ k v h with h2 | h2
    · simp only [parseField] at h2
      rcases hsp : splitOnce ':' (strip part) with _ | ⟨kr, vr⟩
      · rw [hsp] at h2
        exact .inl h2
      · rw [hsp] at h2
        rcases mem_updateA _ _ _ _ h2 with h3 | h3
        · exact .inl h3
        · have hk := congrArg Prod.fst h3
          have hv := congrArg Prod.snd h3
          simp only at hk hv
          refine .inr ⟨part, List.mem_cons_self _ _, kr, vr, hsp, hk, ?_⟩
          rw [hk]
          exact hv
    · obtain ⟨p, hp, hex⟩ := h2
      exact .inr ⟨p, List.mem_cons_of_mem _ hp, hex⟩

/-- C6 counterexample: for the captured region `action: sell | count: 5`, the
code keeps the value of the (unknown) key `count` as the raw string `5` —
only the `price` key's value is numerically parsed — while the claim's
every-value-speculatively-parsed reading yields the integer `5`. -/
theorem c6_counterexample :
    parse_novoice_meta "action: sell | count: 5".data =
      [("action".data, NVal.strV "sell".data), ("count".data, NVal.strV "5".data)] ∧
    claimedParseFields "action: sell | count: 5".data =
      [("action".data, NVal.strV "sell".data), ("count".data, NVal.intV 5)] ∧
    parse_novoice_meta "action: sell | count: 5".data ≠
      claimedParseFields "action: sell | count: 5".data :=
  ⟨by decide, by decide, by decide⟩

/-- C6 (amended): metadata parsing splits the stripped captured region on
`|`, splits each field once on `:`, strips and lowercases the key and strips
the value — but it speculatively parses (integer, then decimal, then raw
text) ONLY the `price` field's value; every other field's value, unknown
keys included, is retained as the raw string.  Every binding of the result
arises from some field this way. -/
theorem c6_only_price_parsed (content k : List Char) (v : NVal)
    (h : (k, v) ∈ parse_novoice_meta content) :
    ∃ part ∈ (strip content).splitOn '|',
      ∃ kr vr, splitOnce ':' (strip part) = some (kr, vr) ∧
        k = toLowerStr (strip kr) ∧
        v = (if k = "price".data then priceValue (strip vr)
             else NVal.strV (strip vr)) := by
  unfold parse_novoice_meta at h
  rcases mem_foldl_parseField _ _ _ _ h with h2 | h2
  · cases h2
  · exact h2

/-- Witness for C6 on the region `price: 12 | mood: happy`. -/
theorem c6_only_price_parsed_witness :
    (("mood".data, NVal.strV "happy".data) ∈
      parse_novoice_meta "price: 12 | mood: happy".data) ∧
    ∃ part ∈ (strip "price: 12 | mood: happy".data).splitOn '|',
      ∃ kr vr, splitOnce ':' (strip part) = some (kr, vr) ∧
        "mood".data = toLowerStr (strip kr) ∧
        NVal.strV "happy".data =
          (if "mood".data = "price".data then priceValue (strip vr)
           else NVal.strV (strip vr)) :=
  ⟨by decide, c6_only_price_parsed "price: 12 | mood: happy".data _ _ (by decide)⟩

/-! ### Claim C2 -/

theorem updateA_ne_nil {κ β : Type} [DecidableEq κ] (m : List (κ × β)) (k : κ)
    (v : β) : updateA m k v ≠ [] := by
  cases m with
  | nil => simp [updateA]
  | cons p rest =>
    obtain ⟨k0, v0⟩ := p
    by_cases h : k0 = k
    · simp [updateA, h]
    · simp [updateA, h]

theorem buildA_snoc {κ β : Type} [DecidableEq κ] (ps : List (κ × β)) (p : κ × β) :
    buildA (ps ++ [p]) = updateA (buildA ps) p.1 p.2 := by
  unfold buildA
  rw [List.foldl_append]
  rfl

theorem buildA_ne_nil {κ β : Type} [DecidableEq κ] (ps : List (κ × β))
    (h : ps ≠ []) : buildA ps ≠ [] := by
  induction ps using List.reverseRecOn with
  | nil => exact absurd rfl h
  | append_singleton qs q _ =>
    rw [buildA_snoc]
    exact updateA_ne_nil _ _ _

theorem lookupA_buildA {κ β : Type} [DecidableEq κ] (ps : List (κ × β)) (k : κ) :
    lookupA (buildA ps) k =
      ((ps.filter (fun p => p.1 = k)).getLast?).map Prod.snd := by
  induction ps using List.reverseRecOn with
  | nil => rfl
  | append_singleton ps p ih =>
    rw [buildA_snoc, List.filter_append]
    by_cases hp : p.1 = k
    · rw [hp, lookupA_updateA_self]
      simp [List.filter_cons, hp, List.getLast?_concat]
    · rw [lookupA_updateA_ne _ _ _ _ (fun e => hp e.symm)]
      simp [List.filter_cons, hp, ih]

theorem keys_updateA {κ β : Type} [DecidableEq κ] (m : List (κ × β)) (k : κ)
    (v : β) :
    (updateA m k v).map Prod.fst =
      if k ∈ m.map Prod.fst then m.map Prod.fst else m.map Prod.fst ++ [k] := by
  induction m with
  | nil => simp [updateA]
  | cons p rest ih =>
    obtain ⟨k0, v0⟩ := p
    by_cases hk : k0 = k
    · subst hk
      simp [updateA]
    · simp only [updateA, if_neg hk, List.map_cons, ih]
      by_cases hmm : k ∈ rest.map Prod.fst
      · simp [hmm, Ne.symm hk]
      · simp [hmm, Ne.symm hk]

theorem keys_buildA_nodup {κ β : Type} [DecidableEq κ] (ps : List (κ × β)) :
    ((buildA ps).map Prod.fst).Nodup := by
  induction ps using List.reverseRecOn with
  | nil => exact List.nodup_nil
  | append_singleton ps p ih =>
    rw [buildA_snoc, keys_updateA]
    by_cases hmm : p.1 ∈ (buildA ps).map Prod.fst
    · simpa [hmm] using ih
    · rw [if_neg hmm]
      refine List.Nodup.append ih (List.nodup_singleton _) ?_
      intro a ha hb
      simp only [List.mem_singleton] at hb
      subst hb
      exact hmm ha

theorem mem_keys_lookupA {κ β : Type} [DecidableEq κ] (m : List (κ × β)) (k : κ) :
    k ∈ m.map Prod.fst ↔ (lookupA m k).isSome := by
  induction m with
  | nil => simp [lookupA]
  | cons p rest ih =>
    obtain ⟨k0, v0⟩ := p
    by_cases h : k0 = k
    · subst h
      simp [lookupA]
    · simp [lookupA, h, ih, Ne.symm h]

theorem mem_keys_buildA {κ β : Type} [DecidableEq κ] (ps : List (κ × β)) (k : κ) :
    k ∈ (buildA ps).map Prod.fst ↔ k ∈ ps.map Prod.fst := by
  rw [mem_keys_lookupA, lookupA_buildA]
  rw [Option.isSome_map']
  rw [List.getLast?_isSome]
  rw [ne_eq, List.filter_eq_nil_iff]
  push_neg
  simp

theorem lookup_applyUploads (sid : List Char) (ups : List Upload) :
    (ups.filter (fun u => u.sid = sid) = [] →
      lookupA (applyUploads ups emptyStore).activeSessions sid = none) ∧
    (ups.filter (fun u => u.sid = sid) ≠ [] →
      lookupA (applyUploads ups emptyStore).activeSessions sid =
        some (buildA ((ups.filter (fun u => u.sid = sid)).map
          (fun u => (u.index, (⟨u.text, u.stt_ms⟩ : ChunkData)))))) := by
  induction ups using List.reverseRecOn with
  | nil => exact ⟨fun _ => rfl, fun h => absurd rfl h⟩
  | append_singleton ups u ih =>
    have happ : applyUploads (ups ++ [u]) emptyStore =
        add_chunk_text (applyUploads ups emptyStore) u.sid u.index u.text u.stt_ms := by
      unfold applyUploads
      rw [List.foldl_append]
      rfl
    rw [happ, List.filter_append]
    simp only [add_chunk_text]
    by_cases hs : u.sid = sid
    · rw [hs]
      rw [lookupA_updateA_self]
      have hfil : List.filter (fun u => decide (u.sid = sid)) [u] = [u] := by
        simp [List.filter_cons, hs]
      rw [hfil]
      constructor
      · intro hemp
        exact absurd hemp (by simp)
      · intro _
        rw [List.map_append]
        rw [show List.map (fun u => (u.index, (⟨u.text, u.stt_ms⟩ : ChunkData))) [u] =
              [(u.index, (⟨u.text, u.stt_ms⟩ : ChunkData))] from rfl]
        rw [buildA_snoc]
        by_cases hmm : ups.filter (fun u => u.sid = sid) = []
        · rw [(ih.1 hmm)]
          rw [hmm]
          rfl
        · rw [(ih.2 hmm)]
          rfl
    · have hfil : List.filter (fun u => decide (u.sid = sid)) [u] = [] := by
        simp [List.filter_cons, hs]
      rw [hfil, List.append_nil]
      rw [lookupA_updateA_ne _ _ _ _ (fun e => hs e.symm)]
      exact ih

theorem sorted_keys_eq (mine : List Upload) :
    List.insertionSort (· ≤ ·)
        ((buildA (mine.map (fun u =>
          (u.index, (⟨u.text, u.stt_ms⟩ : ChunkData))))).map Prod.fst) =
      List.insertionSort (· ≤ ·) (mine.map Upload.index).dedup := by
  apply List.eq_of_perm_of_sorted ?_ (List.sorted_insertionSort _ _)
    (List.sorted_insertionSort _ _)
  refine ((List.perm_insertionSort _ _).trans ?_).trans
    (List.perm_insertionSort _ _).symm
  rw [List.perm_ext_iff_of_nodup (keys_buildA_nodup _) (List.nodup_dedup _)]
  intro a
  rw [mem_keys_buildA, List.mem_dedup, List.map_map]
  simp [Function.comp]

theorem lookup_buildA_upload (mine : List Upload) (i : Int) :
    lookupA (buildA (mine.map (fun u =>
        (u.index, (⟨u.text, u.stt_ms⟩ : ChunkData))))) i =
      ((mine.filter (fun u => u.index = i)).getLast?).map
        (fun u => (⟨u.text, u.stt_ms⟩ : ChunkData)) := by
  rw [lookupA_buildA, List.filter_map]
  rw [List.getLast?_map, Option.map_map]
  have hfil : List.filter ((fun p => decide (p.1 = i)) ∘
        (fun u => (u.index, (⟨u.text, u.stt_ms⟩ : ChunkData)))) mine =
      List.filter (fun u => decide (u.index = i)) mine :=
    List.filter_congr (fun a _ => rfl)
  rw [hfil]
  rfl

theorem text_at_idx (mine : List Upload) (i : Int) :
    ((lookupA (buildA (mine.map (fun u =>
          (u.index, (⟨u.text, u.stt_ms⟩ : ChunkData))))) i).getD ⟨[], 0⟩).text =
      (((mine.filter (fun u => u.index = i)).getLast?).map Upload.text).getD [] := by
  rw [lookup_buildA_upload]
  cases (mine.filter (fun u => u.index = i)).getLast? with
  | none => rfl
  | some u => rfl

theorem stt_at_idx (mine : List Upload) (i : Int) :
    ((lookupA (buildA (mine.map (fun u =>
          (u.index, (⟨u.text, u.stt_ms⟩ : ChunkData))))) i).getD ⟨[], 0⟩).stt_ms =
      (((mine.filter (fun u => u.index = i)).getLast?).map Upload.stt_ms).getD 0 := by
  rw [lookup_buildA_upload]
  cases (mine.filter (fun u => u.index = i)).getLast? with
  | none => rfl
  | some u => rfl

/-- C2: for every session id and every upload sequence (indices arriving in
any order, a later upload for the same index overwriting the earlier one),
`finalize_session` on the store the uploads built returns exactly the
spec-modelled result: the per-index last texts joined with single spaces in
ascending index order, trimmed, with the latency of the highest-index
fragment — and empty text with no latency when no upload targeted the
session. -/
theorem c2_finalize_matches_spec (uploads : List Upload) (sid : List Char) :
    (finalize_session (applyUploads uploads emptyStore) sid).1 =
      specFinalize uploads sid := by
  by_cases hm : uploads.filter (fun u => u.sid = sid) = []
  · rw [finalize_of_lookup_none _ _ ((lookup_applyUploads sid uploads).1 hm)]
    unfold specFinalize
    rw [if_pos hm]
  · have hl := (lookup_applyUploads sid uploads).2 hm
    have hne : buildA ((uploads.filter (fun u => u.sid = sid)).map
        (fun u => (u.index, (⟨u.text, u.stt_ms⟩ : ChunkData)))) ≠ [] :=
      buildA_ne_nil _ (by simpa using hm)
    simp only [finalize_session, hl, if_neg hm, if_neg hne, specFinalize]
    rw [sorted_keys_eq, Prod.mk.injEq]
    refine ⟨?_, ?_⟩
    · rw [List.map_congr_left (fun i _ => text_at_idx _ i)]
    · exact congrArg some (stt_at_idx _ _)

/-! ### Pipeline lemmas (C1, C8, C4) -/

theorem consume_length (chunks : List AudioChunk) :
    (consume chunks).length = chunks.length := by
  simp [consume]

theorem consume_map_index (chunks : List AudioChunk) :
    (consume chunks).map SSEChunk.chunkIndex = List.range' 1 chunks.length := by
  unfold consume
  rw [List.map_map]
  rw [show SSEChunk.chunkIndex ∘ (fun p : Nat × AudioChunk =>
        (⟨p.2.payload, p.1 + 1⟩ : SSEChunk)) = (fun n => n + 1) ∘ Prod.fst from rfl]
  rw [← List.map_map, List.enum_map_fst, List.range'_eq_map_range]
  exact List.map_congr_left (fun a _ => Nat.add_comm a 1)

theorem consume_map_payload (chunks : List AudioChunk) :
    (consume chunks).map SSEChunk.payload = chunks.map AudioChunk.payload := by
  unfold consume
  rw [List.map_map]
  rw [show SSEChunk.payload ∘ (fun p : Nat × AudioChunk =>
        (⟨p.2.payload, p.1 + 1⟩ : SSEChunk)) = AudioChunk.payload ∘ Prod.snd from rfl]
  rw [← List.map_map, List.enum_map_snd]

theorem worker_map_payload (synth : List Char → List TTSEvent)
    (sentences : List (List Char)) :
    (tts_worker synth sentences).map AudioChunk.payload =
      (sentences.map (fun s =>
        ((synth s).filterMap audioOf).map AudioChunk.payload)).flatten := by
  unfold tts_worker
  rw [List.map_flatten, List.map_map]
  rfl

theorem filterMap_audioOf_map (c : List AudioChunk) :
    (c.map TTSEvent.audioEv).filterMap audioOf = c := by
  rw [List.filterMap_map]
  rw [show audioOf ∘ TTSEvent.audioEv = some from rfl]
  exact List.filterMap_some c

theorem lookup_done_error (info : Option LLMDone) (n : Nat) :
    lookupA (doneEventDict info n) "error".data = none := by
  apply lookupA_eq_none
  simp only [doneEventDict, List.map_cons, List.map_nil]
  decide

theorem lookup_done_npc_text (info : Option LLMDone) (n : Nat) :
    lookupA (doneEventDict info n) "npc_text".data =
      some (JVal.jStr ((info.map LLMDone.full_text).getD [])) := by
  simp only [doneEventDict, lookupA]
  simp

/-! ### Claim C1 -/

/-- C1: in every pipeline run, the audio-chunk indices the consumer yields
are exactly 1, 2, 3, … — strictly increasing from 1 with no gaps, global
across the run — and the chunk payloads are, in order, the concatenation of
each dequeued sentence's synthesized audio chunks: all chunks of sentence k
precede every chunk of sentence k+1 and keep the order synthesis yielded
them in. -/
theorem c1_chunk_order (synth : List Char → List TTSEvent) (stream : LLMStream) :
    (pipelineRun synth stream).chunks.map SSEChunk.chunkIndex =
      List.range' 1 (pipelineRun synth stream).chunks.length ∧
    (pipelineRun synth stream).chunks.map SSEChunk.payload =
      ((sentencesOf (llm_producer stream).queue).map (fun s =>
        ((synth s).filterMap audioOf).map AudioChunk.payload)).flatten := by
  constructor
  · simp only [pipelineRun]
    rw [consume_map_index, consume_length]
  · simp only [pipelineRun]
    rw [consume_map_payload, worker_map_payload]

/-! ### Claim C8 -/

/-- C8: with three sentences queued and synthesis failing on exactly the
middle one (it yields just an error event — tts_service.py's zero-chunk
failure path — which the worker's audio-type filter drops, its `try/except`
having kept the worker alive), the consumer still receives all chunks of
the first and third sentences in their original order under gap-free global
indices, and the terminal done event reports the full original generated
text unchanged. -/
theorem c8_interior_tts_failure (synth : List Char → List TTSEvent)
    (s1 s2 s3 : List Char) (info : LLMDone) (c1 c3 : List AudioChunk)
    (msg : List Char)
    (h1 : synth s1 = c1.map TTSEvent.audioEv ++ [TTSEvent.doneEv])
    (h2 : synth s2 = [TTSEvent.errorEv msg])
    (h3 : synth s3 = c3.map TTSEvent.audioEv ++ [TTSEvent.doneEv]) :
    (pipelineRun synth (.ok [.sentenceItem s1, .sentenceItem s2, .sentenceItem s3,
        .doneItem info])).chunks.map SSEChunk.payload =
      (c1 ++ c3).map AudioChunk.payload ∧
    (pipelineRun synth (.ok [.sentenceItem s1, .sentenceItem s2, .sentenceItem s3,
        .doneItem info])).chunks.map SSEChunk.chunkIndex =
      List.range' 1 (c1.length + c3.length) ∧
    lookupA (pipelineRun synth (.ok [.sentenceItem s1, .sentenceItem s2,
        .sentenceItem s3, .doneItem info])).doneEvent "npc_text".data =
      some (JVal.jStr info.full_text) := by
  have hsent : sentencesOf (llm_producer (.ok [LLMItem.sentenceItem s1,
      .sentenceItem s2, .sentenceItem s3, .doneItem info])).queue = [s1, s2, s3] := by
    simp [llm_producer, processItems, sentencesOf, isSentinel]
  have hworker : tts_worker synth [s1, s2, s3] = c1 ++ c3 := by
    unfold tts_worker
    simp only [List.map_cons, List.map_nil, h1, h2, h3, List.flatten_cons,
      List.flatten_nil, List.filterMap_append, filterMap_audioOf_map]
    simp [audioOf]
  have hinfo : (llm_producer (.ok [LLMItem.sentenceItem s1, .sentenceItem s2,
      .sentenceItem s3, .doneItem info])).info = some info := by
    simp [llm_producer, processItems]
  refine ⟨?_, ?_, ?_⟩
  · simp only [pipelineRun, hsent, hworker]
    rw [consume_map_payload]
  · simp only [pipelineRun, hsent, hworker]
    rw [consume_map_index, List.length_append]
  · simp only [pipelineRun, hsent, hworker, hinfo]
    rw [lookup_done_npc_text]
    rfl

/-- Witness for C8 on a concrete three-sentence run whose middle sentence
synthesizes to a single error event. -/
theorem c8_interior_tts_failure_witness :
    (pipelineRun
        (fun s => if s = "One.".data then
            [.audioEv ⟨"p1".data, 1⟩, .doneEv]
          else if s = "Two.".data then [.errorEv "boom".data]
          else [.audioEv ⟨"p3".data, 1⟩, .audioEv ⟨"p4".data, 2⟩, .doneEv])
        (.ok [.sentenceItem "One.".data, .sentenceItem "Two.".data,
          .sentenceItem "Three.".data,
          .doneItem ⟨"One. Two. Three.".data, [], 3⟩])).chunks.map SSEChunk.payload =
      (([⟨"p1".data, 1⟩] ++ [⟨"p3".data, 1⟩, ⟨"p4".data, 2⟩] : List AudioChunk)).map
        AudioChunk.payload ∧
    (pipelineRun
        (fun s => if s = "One.".data then
            [.audioEv ⟨"p1".data, 1⟩, .doneEv]
          else if s = "Two.".data then [.errorEv "boom".data]
          else [.audioEv ⟨"p3".data, 1⟩, .audioEv ⟨"p4".data, 2⟩, .doneEv])
        (.ok [.sentenceItem "One.".data, .sentenceItem "Two.".data,
          .sentenceItem "Three.".data,
          .doneItem ⟨"One. Two. Three.".data, [], 3⟩])).chunks.map SSEChunk.chunkIndex =
      List.range' 1 (([⟨"p1".data, 1⟩] : List AudioChunk).length +
        ([⟨"p3".data, 1⟩, ⟨"p4".data, 2⟩] : List AudioChunk).length) ∧
    lookupA (pipelineRun
        (fun s => if s = "One.".data then
            [.audioEv ⟨"p1".data, 1⟩, .doneEv]
          else if s = "Two.".data then [.errorEv "boom".data]
          else [.audioEv ⟨"p3".data, 1⟩, .audioEv ⟨"p4".data, 2⟩, .doneEv])
        (.ok [.sentenceItem "One.".data, .sentenceItem "Two.".data,
          .sentenceItem "Three.".data,
          .doneItem ⟨"One. Two. Three.".data, [], 3⟩])).doneEvent "npc_text".data =
      some (JVal.jStr "One. Two. Three.".data) :=
  c8_interior_tts_failure _ "One.".data "Two.".data "Three.".data
    ⟨"One. Two. Three.".data, [], 3⟩ [⟨"p1".data, 1⟩] [⟨"p3".data, 1⟩, ⟨"p4".data, 2⟩]
    "boom".data (by decide) (by decide) (by decide)

/-! ### Claim C4 -/

/-- C4 (code bug): when the generation stream fails mid-run, the producer
does catch the exception, records the message under `llm_done_info["error"]`
and still pushes the end-of-sentences sentinel — so the synthesis stage
drains and terminates cleanly — but the terminal done event of
main.py:601-615 is built without any error key at all: the recorded error is
a dead store and no error indicator reaches the caller, contrary to the
spec's required terminal error indicator. -/
theorem c4_error_never_reaches_done (items : List LLMItem) (msg : List Char)
    (synth : List Char → List TTSEvent) :
    (llm_producer (.failsAfter items msg)).error = some msg ∧
    (llm_producer (.failsAfter items msg)).queue.getLast? = some QMsg.sentinel ∧
    lookupA (pipelineRun synth (.failsAfter items msg)).doneEvent "error".data =
      none := by
  refine ⟨rfl, ?_, ?_⟩
  · simp only [llm_producer]
    exact List.getLast?_concat _
  · simp only [pipelineRun]
    exact lookup_done_error _ _

end AtomVoice
